import Mathlib

/-!
Shallow embedding of the Spanner TypeORM driver's schema-discovery,
schema-diff and parameter-translation subsystem (the `SpannerDriver` class),
together with theorems checking the specification's claims against it.

Strings are modelled as `List Char` (the `data` of a `String`); the driver's
JavaScript regexes are translated into explicit scanners over `List Char`
that follow the regex semantics (leftmost unanchored search, greedy and lazy
runs) on the shapes at hand.
-/

namespace SpannerDriver

/-- JS regex class `\w` (ASCII word character: letter, digit, underscore). -/
def isWordChar (c : Char) : Bool := c.isAlphanum || c == '_'

/-- Strip a literal pattern from the front of the input, returning the rest. -/
def stripPrefixQ : List Char → List Char → Option (List Char)
| [], s => some s
| _ :: _, [] => none
| p :: ps, c :: cs => if p == c then stripPrefixQ ps cs else none

/-- `s` starts with the literal `p` (JS `indexOf(p) == 0`). -/
def startsWithL (p s : List Char) : Bool := (stripPrefixQ p s).isSome

/-- JS `indexOf(needle) >= 0`: `needle` occurs as a contiguous substring. -/
def containsSubL (needle : List Char) : List Char → Bool
| [] => startsWithL needle []
| c :: r => startsWithL needle (c :: r) || containsSubL needle r

/-- JS `String.prototype.trim` (whitespace stripped from both ends). -/
def trimL (s : List Char) : List Char :=
  ((s.dropWhile Char.isWhitespace).reverse.dropWhile Char.isWhitespace).reverse

/-- Lower-case a character list (JS `toLowerCase` on the ASCII DDL text). -/
def charListToLower (l : List Char) : List Char := l.map Char.toLower

/-- JS `Number` applied to a run of decimal digits. -/
def digitsToNat (l : List Char) : Nat := l.foldl (fun a c => a * 10 + (c.toNat - 48)) 0

/-! ## parseTypeName (`SpannerDriver.parseTypeName`)

The source matches the type token against `([^\(]+)\((\d+)\)`, then against
`([^<]+)<(\w+)>`, and otherwise returns the bare token with length 1. -/

/-- Attempt of the JS regex `([^\(]+)\((\d+)\)` anchored at the head of `s`:
a nonempty run of non-`(` characters, `(`, a nonempty digit run, `)`.
(The greedy runs are deterministic here: a shorter run of `[^(]` still ends
at a non-`(` character, so backtracking cannot help.) -/
def matchTypeLenAt (s : List Char) : Option (List Char × List Char) :=
  let g1 := s.takeWhile (· != '(')
  match s.dropWhile (· != '(') with
  | '(' :: r2 =>
    if g1.isEmpty then none
    else
      let ds := r2.takeWhile Char.isDigit
      match r2.dropWhile Char.isDigit with
      | ')' :: _ => if ds.isEmpty then none else some (g1, ds)
      | _ => none
  | _ => none

/-- Unanchored search for `([^\(]+)\((\d+)\)`, as JS `String.match` performs:
the attempt is made at every start position, left to right. -/
def matchTypeLen : List Char → Option (List Char × List Char)
| [] => none
| c :: r => (matchTypeLenAt (c :: r)).orElse fun _ => matchTypeLen r

/-- Attempt of the JS regex `([^<]+)<(\w+)>` anchored at the head of `s`. -/
def matchArrayTypeAt (s : List Char) : Bool :=
  let g1 := s.takeWhile (· != '<')
  match s.dropWhile (· != '<') with
  | '<' :: r2 =>
    if g1.isEmpty then false
    else
      let w := r2.takeWhile isWordChar
      match r2.dropWhile isWordChar with
      | '>' :: _ => !w.isEmpty
      | _ => false
  | _ => false

/-- Unanchored search for `([^<]+)<(\w+)>`. -/
def matchArrayType : List Char → Bool
| [] => false
| c :: r => matchArrayTypeAt (c :: r) || matchArrayType r

/-- The transient value produced by `parseTypeName` for a single type token. -/
structure ParsedType where
  typeName : String
  isArray : Bool
  length : Nat
deriving DecidableEq, Repr

/-- `SpannerDriver.parseTypeName`: resolve a column type token.
`type(length)` yields the declared length; `type<element>` is an array of
1-length elements (the whole token lower-cased, as in the source); a bare
token gets length 1. -/
def parseTypeName (typeName : List Char) : ParsedType :=
  match matchTypeLen typeName with
  | some (g1, ds) => ⟨String.mk (charListToLower g1), false, digitsToNat ds⟩
  | none =>
    if matchArrayType typeName then ⟨String.mk (charListToLower typeName), true, 1⟩
    else ⟨String.mk (charListToLower typeName), false, 1⟩

/-! Helper lemmas about `takeWhile`/`dropWhile` over concatenations. -/

theorem takeWhile_append_cons {p : Char → Bool} {l r : List Char} {c : Char}
    (hl : ∀ x ∈ l, p x = true) (hc : p c = false) :
    (l ++ c :: r).takeWhile p = l := by
  induction l with
  | nil => simp [List.takeWhile_cons, hc]
  | cons a as ih =>
    have ha : p a = true := hl a (by simp)
    simp only [List.cons_append, List.takeWhile_cons, ha]
    simp [ih (fun x hx => hl x (by simp [hx]))]

theorem dropWhile_append_cons {p : Char → Bool} {l r : List Char} {c : Char}
    (hl : ∀ x ∈ l, p x = true) (hc : p c = false) :
    (l ++ c :: r).dropWhile p = c :: r := by
  induction l with
  | nil => simp [List.dropWhile_cons, hc]
  | cons a as ih =>
    have ha : p a = true := hl a (by simp)
    simp only [List.cons_append, List.dropWhile_cons, ha]
    simp [ih (fun x hx => hl x (by simp [hx]))]

theorem takeWhile_all {p : Char → Bool} {l : List Char} (hl : ∀ x ∈ l, p x = true) :
    l.takeWhile p = l := by
  induction l with
  | nil => rfl
  | cons a as ih =>
    simp only [List.takeWhile_cons, hl a (by simp)]
    simp [ih (fun x hx => hl x (by simp [hx]))]

theorem dropWhile_all {p : Char → Bool} {l : List Char} (hl : ∀ x ∈ l, p x = true) :
    l.dropWhile p = [] := by
  induction l with
  | nil => rfl
  | cons a as ih =>
    simp only [List.dropWhile_cons, hl a (by simp)]
    simp [ih (fun x hx => hl x (by simp [hx]))]

theorem matchTypeLenAt_no_paren {s : List Char} (h : '(' ∉ s) : matchTypeLenAt s = none := by
  unfold matchTypeLenAt
  have hd : s.dropWhile (· != '(') = [] :=
    dropWhile_all (fun x hx => by
      simp only [bne_iff_ne, ne_eq, decide_eq_true_eq]
      exact fun he => h (he ▸ hx))
  simp [hd]

theorem matchTypeLen_no_paren {s : List Char} (h : '(' ∉ s) : matchTypeLen s = none := by
  induction s with
  | nil => rfl
  | cons c r ih =>
    have hc : '(' ∉ (c :: r) := h
    have hr : '(' ∉ r := fun hx => h (by simp [hx])
    simp [matchTypeLen, matchTypeLenAt_no_paren hc, Option.orElse, ih hr]

theorem matchArrayTypeAt_no_angle {s : List Char} (h : '<' ∉ s) : matchArrayTypeAt s = false := by
  unfold matchArrayTypeAt
  have hd : s.dropWhile (· != '<') = [] :=
    dropWhile_all (fun x hx => by
      simp only [bne_iff_ne, ne_eq, decide_eq_true_eq]
      exact fun he => h (he ▸ hx))
  simp [hd]

theorem matchArrayType_no_angle {s : List Char} (h : '<' ∉ s) : matchArrayType s = false := by
  induction s with
  | nil => rfl
  | cons c r ih =>
    have hr : '<' ∉ r := fun hx => h (by simp [hx])
    simp [matchArrayType, matchArrayTypeAt_no_angle h, ih hr]

/-- Claim C10: for type tokens without a parenthesized numeric length — the bare
`type` and `type<element>` shapes — `parseTypeName` returns length 1 (never a
type-specific default such as 255), and only the `type(length)` shape yields
the declared length. -/
theorem parseTypeName_default_length :
    (∀ t, matchTypeLen t = none → (parseTypeName t).length = 1)
    ∧ (∀ t, '(' ∉ t → '<' ∉ t →
        parseTypeName t = ⟨String.mk (charListToLower t), false, 1⟩)
    ∧ (∀ base elem, base ≠ [] → '<' ∉ base → '(' ∉ base → elem ≠ [] →
        (∀ c ∈ elem, isWordChar c = true) → '(' ∉ elem →
        parseTypeName (base ++ '<' :: (elem ++ ['>'])) =
          ⟨String.mk (charListToLower (base ++ '<' :: (elem ++ ['>']))), true, 1⟩)
    ∧ (∀ base ds, base ≠ [] → '(' ∉ base → ds ≠ [] → (∀ c ∈ ds, c.isDigit = true) →
        parseTypeName (base ++ '(' :: (ds ++ [')'])) =
          ⟨String.mk (charListToLower base), false, digitsToNat ds⟩) := by
  refine ⟨?_, ?_, ?_, ?_⟩
  · intro t h
    unfold parseTypeName
    rw [h]
    by_cases ha : matchArrayType t = true <;> simp [ha]
  · intro t hp ha
    unfold parseTypeName
    rw [matchTypeLen_no_paren hp, matchArrayType_no_angle ha]
    simp
  · intro base elem hb hangle hparen he hw heparen
    have hnop : '(' ∉ base ++ '<' :: (elem ++ ['>']) := by
      intro hx
      rcases List.mem_append.mp hx with h1 | h2
      · exact hparen h1
      · rcases h2 with _ | h3
        rcases List.mem_append.mp (by assumption) with h4 | h5
        · exact heparen h4
        · simp at h5
    have ht : (base ++ '<' :: (elem ++ ['>'])).takeWhile (· != '<') = base :=
      takeWhile_append_cons
        (fun x hx => by
          simp only [bne_iff_ne, ne_eq, decide_eq_true_eq]
          exact fun hh => hangle (hh ▸ hx))
        (by simp)
    have hdp : (base ++ '<' :: (elem ++ ['>'])).dropWhile (· != '<') = '<' :: (elem ++ ['>']) :=
      dropWhile_append_cons
        (fun x hx => by
          simp only [bne_iff_ne, ne_eq, decide_eq_true_eq]
          exact fun hh => hangle (hh ▸ hx))
        (by simp)
    have htw : (elem ++ ['>']).takeWhile isWordChar = elem :=
      takeWhile_append_cons (fun x hx => hw x hx) (by decide)
    have hdw : (elem ++ ['>']).dropWhile isWordChar = ['>'] :=
      dropWhile_append_cons (fun x hx => hw x hx) (by decide)
    have hAt : matchArrayTypeAt (base ++ '<' :: (elem ++ ['>'])) = true := by
      simp only [matchArrayTypeAt, ht, hdp, htw, hdw]
      simp [hb, he]
    have hMA : matchArrayType (base ++ '<' :: (elem ++ ['>'])) = true := by
      obtain ⟨c, r, rfl⟩ := List.exists_cons_of_ne_nil hb
      rw [List.cons_append] at hAt ⊢
      simp [matchArrayType, hAt]
    unfold parseTypeName
    rw [matchTypeLen_no_paren hnop, hMA]
    simp
  · intro base ds hb hparen hd hdig
    have ht : (base ++ '(' :: (ds ++ [')'])).takeWhile (· != '(') = base :=
      takeWhile_append_cons
        (fun x hx => by
          simp only [bne_iff_ne, ne_eq, decide_eq_true_eq]
          exact fun hh => hparen (hh ▸ hx))
        (by simp)
    have hdp : (base ++ '(' :: (ds ++ [')'])).dropWhile (· != '(') = '(' :: (ds ++ [')']) :=
      dropWhile_append_cons
        (fun x hx => by
          simp only [bne_iff_ne, ne_eq, decide_eq_true_eq]
          exact fun hh => hparen (hh ▸ hx))
        (by simp)
    have htw : (ds ++ [')']).takeWhile Char.isDigit = ds :=
      takeWhile_append_cons (fun x hx => hdig x hx) (by decide)
    have hdw : (ds ++ [')']).dropWhile Char.isDigit = [')'] :=
      dropWhile_append_cons (fun x hx => hdig x hx) (by decide)
    have hAt : matchTypeLenAt (base ++ '(' :: (ds ++ [')'])) = some (base, ds) := by
      simp only [matchTypeLenAt, ht, hdp, htw, hdw]
      simp [hb, hd]
    have hML : matchTypeLen (base ++ '(' :: (ds ++ [')'])) = some (base, ds) := by
      obtain ⟨c, r, rfl⟩ := List.exists_cons_of_ne_nil hb
      rw [List.cons_append] at hAt ⊢
      simp [matchTypeLen, hAt, Option.orElse]
    unfold parseTypeName
    rw [hML]

/-- Witness for C10: concrete instances of each shape. -/
theorem parseTypeName_default_length_witness :
    parseTypeName ("INT64".data) = ⟨String.mk (charListToLower "INT64".data), false, 1⟩
    ∧ parseTypeName ("ARRAY".data ++ '<' :: ("INT64".data ++ ['>'])) =
        ⟨String.mk (charListToLower ("ARRAY".data ++ '<' :: ("INT64".data ++ ['>']))), true, 1⟩
    ∧ parseTypeName ("STRING".data ++ '(' :: ("255".data ++ [')'])) =
        ⟨String.mk (charListToLower "STRING".data), false, digitsToNat "255".data⟩ :=
  ⟨parseTypeName_default_length.2.1 "INT64".data (by decide) (by decide),
   parseTypeName_default_length.2.2.1 "ARRAY".data "INT64".data (by decide) (by decide)
     (by decide) (by decide) (by decide) (by decide),
   parseTypeName_default_length.2.2.2 "STRING".data "255".data (by decide) (by decide)
     (by decide) (by decide)⟩

/-! ## compareDefaultValues (`SpannerDriver.compareDefaultValues`)

The source replaces `/^'+|'+$/g` with the empty string in both arguments
when both are strings — i.e. the maximal leading run and the maximal trailing
run of quote characters are removed — and then compares with `===`. -/

/-- The single-quote character the driver strips from default values. -/
def squote : Char := '\''

def isQuote (c : Char) : Bool := c == squote

/-- Effect of the JS replacement `value.replace(/^'+|'+$/g, "")`: the maximal
leading and trailing runs of `'` are removed (a string consisting only of
quotes collapses to the empty string via the leading-run match alone). -/
def stripAllQuotes (s : List Char) : List Char :=
  ((s.dropWhile isQuote).reverse.dropWhile isQuote).reverse

/-- `SpannerDriver.compareDefaultValues`: when both values are strings, both are
quote-stripped before the `===` comparison; otherwise they are compared as-is
(`none` models `undefined`). -/
def compareDefaultValues : Option (List Char) → Option (List Char) → Bool
| some a, some b => stripAllQuotes a == stripAllQuotes b
| a, b => a == b

/-- Spec-side notion: strip a *single* layer of surrounding quotes:
one leading quote if present. -/
def dropLeadQuote1 : List Char → List Char
| [] => []
| c :: r => if c = squote then r else c :: r

/-- Spec-side notion: strip one trailing quote if present. -/
def dropTrailQuote1 : List Char → List Char
| [] => []
| [c] => if c = squote then [] else [c]
| c :: d :: r => c :: dropTrailQuote1 (d :: r)

/-- Strip a single layer of surrounding quotes (the spec's wording). -/
def stripOneLayer (s : List Char) : List Char := dropTrailQuote1 (dropLeadQuote1 s)

theorem dropWhile_dropLeadQuote1 (s : List Char) :
    (dropLeadQuote1 s).dropWhile isQuote = s.dropWhile isQuote := by
  cases s with
  | nil => rfl
  | cons c r =>
    by_cases hc : c = squote
    · subst hc; simp [dropLeadQuote1, List.dropWhile_cons, isQuote]
    · simp [dropLeadQuote1, hc, List.dropWhile_cons, isQuote]

theorem dropTrailQuote1_cons {c : Char} {w : List Char} (h : w ≠ []) :
    dropTrailQuote1 (c :: w) = c :: dropTrailQuote1 w := by
  cases w with
  | nil => exact absurd rfl h
  | cons d r => rfl

/-- Stripping one trailing quote commutes with stripping all leading quotes. -/
theorem dropWhile_dropTrailQuote1 (v : List Char) :
    (dropTrailQuote1 v).dropWhile isQuote = dropTrailQuote1 (v.dropWhile isQuote) := by
  induction v with
  | nil => rfl
  | cons c w ih =>
    cases w with
    | nil =>
      by_cases hc : c = squote
      · subst hc; simp [dropTrailQuote1, List.dropWhile_cons, isQuote]
      · simp [dropTrailQuote1, hc, List.dropWhile_cons, isQuote]
    | cons d r =>
      rw [dropTrailQuote1_cons (by simp)]
      by_cases hc : c = squote
      · subst hc
        rw [List.dropWhile_cons, List.dropWhile_cons]
        simp only [show isQuote squote = true from rfl, if_pos rfl]
        exact ih
      · have hq : isQuote c = false := by simp [isQuote, hc]
        rw [List.dropWhile_cons, List.dropWhile_cons]
        simp only [hq]
        simp only [Bool.false_eq_true, if_false]
        exact (dropTrailQuote1_cons (by simp)).symm

theorem dropLeadQuote1_append {x : List Char} (y : List Char) (h : x ≠ []) :
    dropLeadQuote1 (x ++ y) = dropLeadQuote1 x ++ y := by
  cases x with
  | nil => exact absurd rfl h
  | cons c r =>
    by_cases hc : c = squote <;> simp [dropLeadQuote1, hc]

theorem reverse_dropTrailQuote1 (u : List Char) :
    (dropTrailQuote1 u).reverse = dropLeadQuote1 u.reverse := by
  induction u with
  | nil => rfl
  | cons c w ih =>
    cases w with
    | nil =>
      by_cases hc : c = squote <;> simp [dropTrailQuote1, dropLeadQuote1, hc]
    | cons d r =>
      rw [dropTrailQuote1_cons (by simp)]
      simp only [List.reverse_cons, ih]
      rw [dropLeadQuote1_append [c] (by simp)]

/-- Stripping a single surrounding layer does not change the fully
quote-stripped form. -/
theorem stripAllQuotes_stripOneLayer (s : List Char) :
    stripAllQuotes (stripOneLayer s) = stripAllQuotes s := by
  unfold stripAllQuotes stripOneLayer
  rw [dropWhile_dropTrailQuote1, dropWhile_dropLeadQuote1, reverse_dropTrailQuote1,
    dropWhile_dropLeadQuote1]

/-- Claim C6 (amended): `compareDefaultValues` strips the maximal leading and
trailing runs of quote characters — all surrounding quotes, not a single
layer — from both string arguments before comparing; two string defaults
compare equal iff they agree after stripping all surrounding quotes, and in
particular any two strings identical after stripping one surrounding layer
still compare equal. -/
theorem compareDefaultValues_quote_stripping :
    (∀ a b : List Char,
      compareDefaultValues (some a) (some b) = true ↔ stripAllQuotes a = stripAllQuotes b)
    ∧ (∀ a b : List Char, stripOneLayer a = stripOneLayer b →
      compareDefaultValues (some a) (some b) = true) := by
  constructor
  · intro a b
    simp [compareDefaultValues]
  · intro a b h
    have := (stripAllQuotes_stripOneLayer a).symm.trans
      ((congrArg stripAllQuotes h).trans (stripAllQuotes_stripOneLayer b))
    simp [compareDefaultValues, this]

/-- Witness for C6's amended theorem at a concrete input. -/
theorem compareDefaultValues_quote_stripping_witness :
    compareDefaultValues (some ['x']) (some [squote, 'x', squote]) = true :=
  compareDefaultValues_quote_stripping.2 ['x'] [squote, 'x', squote] (by decide)

/-- Counterexample to C6 as stated: the inputs two-quotes-x-two-quotes and
quote-x-quote differ after stripping a single layer of surrounding quotes,
yet `compareDefaultValues` reports them equal — the code strips all
surrounding quotes, not one layer. -/
theorem compareDefaultValues_counterexample :
    stripOneLayer [squote, squote, 'x', squote, squote] ≠ stripOneLayer [squote, 'x', squote]
    ∧ compareDefaultValues (some [squote, squote, 'x', squote, squote])
        (some [squote, 'x', squote]) = true := by
  constructor
  · decide
  · decide

/-! ## Data model: normalization and the schema differ

`ColumnType` models the TypeORM logical column type: either one of the JS
class tags (`Number`, `String`, `Date`, `Buffer`, `Boolean`) or a type name
string. -/

inductive ColumnType where
| jsNumber
| jsString
| jsDate
| jsBuffer
| jsBoolean
| named (s : String)
deriving DecidableEq, Repr

/-- `SpannerDriver.normalizeType`, following the source's cascade of checks. -/
def normalizeType : ColumnType → String
| .jsNumber => "int64"
| .named "integer" => "int64"
| .jsString => "string"
| .named "nvarchar" => "string"
| .jsDate => "timestamp"
| .jsBuffer => "bytes"
| .jsBoolean => "bool"
| .named "simple-array" => "string"
| .named "simple-json" => "string"
| .named s => s

/-- `SpannerColumnUpdateWithCommitTimestamp` from the source. -/
def spannerColumnUpdateWithCommitTimestamp : List Char := "commit_timestamp".data

/-- The JS value held in `columnMetadata.default`: a number, boolean, string,
function (modelled by the string it returns) or `undefined`. -/
inductive MetaDefault where
| dnum (n : Int)
| dbool (b : Bool)
| dstr (s : List Char)
| dfunc (ret : List Char)
| dundef
deriving DecidableEq, Repr

/-- An entity index as consulted by `normalizeIsUnique`
(`entityMetadata.indices`); the identity comparison `idx.columns[0] === column`
is modelled through the column's database name. -/
structure MetaIndex where
  isUnique : Bool
  columnNames : List String
deriving DecidableEq, Repr

/-- The desired-column metadata fields read by `findChangedColumns`,
`normalizeType`, `normalizeDefault` and `normalizeIsUnique`. -/
structure ColumnMetadata where
  databaseName : String
  type : ColumnType
  length : String
  width : Option Int
  precision : Option Int
  scale : Option Int
  zerofill : Bool
  unsigned : Bool
  asExpression : Option String
  generatedType : Option String
  default : MetaDefault
  isUpdateDate : Bool
  onUpdate : Option String
  isPrimary : Bool
  isNullable : Bool
  isGenerated : Bool
  generationStrategy : Option String
  indices : List MetaIndex
deriving DecidableEq, Repr

/-- The live-column fields read by `findChangedColumns`. -/
structure TableColumn where
  name : String
  type : String
  length : String
  width : Option Int
  precision : Option Int
  scale : Option Int
  zerofill : Bool
  unsigned : Bool
  asExpression : Option String
  generatedType : Option String
  default : Option (List Char)
  onUpdate : Option String
  isPrimary : Bool
  isNullable : Bool
  isUnique : Bool
  isGenerated : Bool
deriving DecidableEq, Repr

/-- `SpannerDriver.normalizeDefault`. -/
def normalizeDefault (cm : ColumnMetadata) : Option (List Char) :=
  if cm.isUpdateDate then some spannerColumnUpdateWithCommitTimestamp
  else match cm.default with
  | .dnum n => some (toString n).data
  | .dbool b => some (if b then "true".data else "false".data)
  | .dfunc ret => some ret
  | .dstr s => some (squote :: (s ++ [squote]))
  | .dundef => none

/-- `SpannerDriver.normalizeIsUnique`: a single-column unique entity index
exists for this column. -/
def normalizeIsUnique (cm : ColumnMetadata) : Bool :=
  cm.indices.any fun idx =>
    idx.isUnique && idx.columnNames.length == 1 && idx.columnNames.head? == some cm.databaseName

/-- The field-by-field comparison in `SpannerDriver.findChangedColumns`
(the commented-out `comment` comparison in the source is omitted there too). -/
def columnChanged (tc : TableColumn) (cm : ColumnMetadata) : Bool :=
  tc.name != cm.databaseName
  || tc.type != normalizeType cm.type
  || tc.length != cm.length
  || tc.width != cm.width
  || tc.precision != cm.precision
  || tc.scale != cm.scale
  || tc.zerofill != cm.zerofill
  || tc.unsigned != cm.unsigned
  || tc.asExpression != cm.asExpression
  || tc.generatedType != cm.generatedType
  || !(compareDefaultValues (normalizeDefault cm) tc.default)
  || tc.onUpdate != cm.onUpdate
  || tc.isPrimary != cm.isPrimary
  || tc.isNullable != cm.isNullable
  || tc.isUnique != normalizeIsUnique cm
  || (cm.generationStrategy != some "uuid" && tc.isGenerated != cm.isGenerated)

/-- `SpannerDriver.findChangedColumns`: filter the desired columns, keeping
those whose live column of the same database name differs; desired columns
with no live counterpart are dropped. -/
def findChangedColumns (tableColumns : List TableColumn)
    (columnMetadatas : List ColumnMetadata) : List ColumnMetadata :=
  columnMetadatas.filter fun cm =>
    match tableColumns.find? (fun c => c.name == cm.databaseName) with
    | none => false
    | some tc => columnChanged tc cm

/-- Claim C5: when every desired column agrees with the live column of its
database name on every compared attribute, `findChangedColumns` returns the
empty sequence. -/
theorem findChangedColumns_no_change (tcs : List TableColumn) (cms : List ColumnMetadata)
    (h : ∀ cm ∈ cms, ∀ tc, tcs.find? (fun c => c.name == cm.databaseName) = some tc →
      tc.type = normalizeType cm.type ∧ tc.length = cm.length ∧ tc.width = cm.width ∧
      tc.precision = cm.precision ∧ tc.scale = cm.scale ∧ tc.zerofill = cm.zerofill ∧
      tc.unsigned = cm.unsigned ∧ tc.asExpression = cm.asExpression ∧
      tc.generatedType = cm.generatedType ∧
      compareDefaultValues (normalizeDefault cm) tc.default = true ∧
      tc.onUpdate = cm.onUpdate ∧ tc.isPrimary = cm.isPrimary ∧
      tc.isNullable = cm.isNullable ∧ tc.isUnique = normalizeIsUnique cm ∧
      tc.isGenerated = cm.isGenerated) :
    findChangedColumns tcs cms = [] := by
  unfold findChangedColumns
  rw [List.filter_eq_nil_iff]
  intro cm hcm
  cases hfind : tcs.find? (fun c => c.name == cm.databaseName) with
  | none => simp [hfind]
  | some tc =>
    obtain ⟨h1, h2, h3, h4, h5, h6, h7, h8, h9, h10, h11, h12, h13, h14, h15⟩ :=
      h cm hcm tc hfind
    have hname : tc.name = cm.databaseName := by
      have := List.find?_some hfind
      simpa using this
    simp [hfind, columnChanged, hname, h1, h2, h3, h4, h5, h6, h7, h8, h9, h10,
      h11, h12, h13, h14, h15]

/-- A sample live/desired column pair that agree on every compared field. -/
def sampleColumnMetadata : ColumnMetadata :=
  { databaseName := "id", type := .named "int64", length := "", width := none,
    precision := none, scale := none, zerofill := false, unsigned := false,
    asExpression := none, generatedType := none, default := .dundef,
    isUpdateDate := false, onUpdate := none, isPrimary := true,
    isNullable := false, isGenerated := false, generationStrategy := none,
    indices := [] }

def sampleTableColumn : TableColumn :=
  { name := "id", type := "int64", length := "", width := none, precision := none,
    scale := none, zerofill := false, unsigned := false, asExpression := none,
    generatedType := none, default := none, onUpdate := none, isPrimary := true,
    isNullable := false, isUnique := false, isGenerated := false }

/-- Witness for C5 at a concrete equal live/desired pair. -/
theorem findChangedColumns_no_change_witness :
    findChangedColumns [sampleTableColumn] [sampleColumnMetadata] = [] := by
  refine findChangedColumns_no_change _ _ ?_
  intro cm hcm tc hfind
  have hcm' : cm = sampleColumnMetadata := by simpa using hcm
  subst hcm'
  have hfind' : (some sampleTableColumn : Option TableColumn) = some tc := by
    rw [show List.find? (fun c => c.name == sampleColumnMetadata.databaseName)
      [sampleTableColumn] = some sampleTableColumn from rfl] at hfind
    exact hfind
  cases hfind'
  decide

/-- Claim C7: the changed-column list is a subsequence of the desired columns
in their original order, and a desired column with no live column of the same
database name never appears in it. -/
theorem findChangedColumns_subsequence (tcs : List TableColumn) (cms : List ColumnMetadata) :
    (findChangedColumns tcs cms).Sublist cms ∧
    ∀ cm ∈ cms, (∀ tc ∈ tcs, tc.name ≠ cm.databaseName) →
      cm ∉ findChangedColumns tcs cms := by
  constructor
  · exact List.filter_sublist _
  · intro cm _ hnone hmem
    unfold findChangedColumns at hmem
    have hp := List.of_mem_filter hmem
    have hfind : tcs.find? (fun c => c.name == cm.databaseName) = none := by
      rw [List.find?_eq_none]
      intro tc htc
      simp [hnone tc htc]
    rw [hfind] at hp
    simp at hp

/-- Witness for C7: a desired column absent from the live set is excluded. -/
theorem findChangedColumns_subsequence_witness :
    sampleColumnMetadata ∉ findChangedColumns [] [sampleColumnMetadata] :=
  (findChangedColumns_subsequence [] [sampleColumnMetadata]).2 sampleColumnMetadata
    (by simp) (fun tc htc => absurd htc (List.not_mem_nil tc))

/-! ## Parsed-table data model (`TableOptions` / `Table`)

`parseSchema` assembles `TableOptions` and wraps them in `Table` objects;
the `Table` class itself lives outside the provided source, but it carries
exactly the options data used here, so `Table` is modelled as that record. -/

structure TableColumnOptions where
  name : String
  type : String
  isNullable : Bool
  isGenerated : Bool
  isPrimary : Bool
  isUnique : Bool
  isArray : Bool
  length : String
  default : Option (List Char)
  generationStrategy : Option String
deriving DecidableEq, Repr

structure TableIndexOptions where
  name : String
  columnNames : List String
  isUnique : Bool
  isSpatial : Bool
deriving DecidableEq, Repr

structure TableUniqueOptions where
  name : String
  columnNames : List String
deriving DecidableEq, Repr

structure TableForeignKeyOptions where
  name : String
  columnNames : List String
  referencedTableName : String
  referencedColumnNames : List String
deriving DecidableEq, Repr

structure Table where
  name : String
  columns : List TableColumnOptions
  indices : List TableIndexOptions
  uniques : List TableUniqueOptions
  foreignKeys : List TableForeignKeyOptions
deriving DecidableEq, Repr

/-! ## Extended-schema merger (`SpannerDriver.updateTableWithExtendSchema`) -/

/-- One extended-schema column entry: generator marker presence, default
expression, generation strategy (`generatorStorategy` in the source). -/
structure ExtendColumnSchema where
  generator : Option (List Char)
  default : Option (List Char)
  generatorStorategy : Option String
deriving DecidableEq, Repr

/-- The three-field overlay the merger performs on a found column
(`column.isGenerated = !!columnSchema.generator` etc.). -/
def applyExtendToColumn (c : TableColumnOptions) (sch : ExtendColumnSchema) : TableColumnOptions :=
  { c with
    isGenerated := sch.generator.isSome,
    default := sch.default,
    generationStrategy := sch.generatorStorategy }

/-- `table.findColumnByName(columnName)` followed by the in-place overlay:
update the first column with the given name, returning the list unchanged
(the source only logs a warning) when no column has that name.
(`Table.findColumnByName` is outside the provided source; modelled from the
spec: the merger locates the parsed column descriptor with that name.) -/
def overlayColumn : List TableColumnOptions → String → ExtendColumnSchema → List TableColumnOptions
| [], _, _ => []
| c :: cs, cn, sch =>
  if c.name == cn then applyExtendToColumn c sch :: cs
  else c :: overlayColumn cs cn sch

/-- The inner loop `for columnName in extendSchema`. -/
def updateColumnsWithExtendSchema (cols : List TableColumnOptions)
    (entries : List (String × ExtendColumnSchema)) : List TableColumnOptions :=
  entries.foldl (fun cs e => overlayColumn cs e.1 e.2) cols

/-- `SpannerDriver.updateTableWithExtendSchema`: for every table in the
database, overlay the extended-schema entries of that table (if any) onto its
columns.  (The source mutates `db.tables` in place and returns the extended
schema map; the effect on the tables is modelled.) -/
def updateTableWithExtendSchema (tables : List (String × Table))
    (extendSchemas : List (String × List (String × ExtendColumnSchema))) :
    List (String × Table) :=
  tables.map fun t =>
    match extendSchemas.lookup t.1 with
    | some entries =>
      (t.1, { t.2 with columns := updateColumnsWithExtendSchema t.2.columns entries })
    | none => t

theorem overlayColumn_map_name (cols : List TableColumnOptions) (cn : String)
    (sch : ExtendColumnSchema) :
    (overlayColumn cols cn sch).map TableColumnOptions.name =
      cols.map TableColumnOptions.name := by
  induction cols with
  | nil => rfl
  | cons c cs ih =>
    by_cases hc : (c.name == cn) = true
    · simp [overlayColumn, hc, applyExtendToColumn]
    · simp only [overlayColumn, hc]
      simp [ih]

theorem updateColumns_map_name (entries : List (String × ExtendColumnSchema))
    (cols : List TableColumnOptions) :
    (updateColumnsWithExtendSchema cols entries).map TableColumnOptions.name =
      cols.map TableColumnOptions.name := by
  induction entries generalizing cols with
  | nil => rfl
  | cons e rest ih =>
    show (updateColumnsWithExtendSchema (overlayColumn cols e.1 e.2) rest).map _ = _
    rw [ih, overlayColumn_map_name]

theorem overlayColumn_skip (cols : List TableColumnOptions) (cn : String)
    (sch : ExtendColumnSchema) (h : ∀ c ∈ cols, c.name ≠ cn) :
    overlayColumn cols cn sch = cols := by
  induction cols with
  | nil => rfl
  | cons c cs ih =>
    have hc : (c.name == cn) = false := by
      simp [h c (by simp)]
    simp only [overlayColumn, hc]
    simp [ih (fun x hx => h x (by simp [hx]))]

theorem mem_overlayColumn_of_name_ne {cols : List TableColumnOptions} {cn : String}
    {sch : ExtendColumnSchema} {c : TableColumnOptions}
    (hmem : c ∈ overlayColumn cols cn sch) (hne : c.name ≠ cn) : c ∈ cols := by
  induction cols with
  | nil => simp [overlayColumn] at hmem
  | cons c0 cs ih =>
    by_cases hc : (c0.name == cn) = true
    · simp only [overlayColumn, hc, if_true] at hmem
      rcases List.mem_cons.mp hmem with he | hcs
      · subst he
        exact absurd (by simpa [applyExtendToColumn] using hc) hne
      · exact List.mem_cons_of_mem _ hcs
    · simp only [overlayColumn, hc] at hmem
      simp only [Bool.false_eq_true, if_false] at hmem
      rcases List.mem_cons.mp hmem with he | hcs
      · exact he ▸ List.mem_cons_self _ _
      · exact List.mem_cons_of_mem _ (ih hcs)

theorem mem_overlayColumn_of_mem {cols : List TableColumnOptions} {cn : String}
    {sch : ExtendColumnSchema} {c : TableColumnOptions}
    (hmem : c ∈ cols) (hne : c.name ≠ cn) : c ∈ overlayColumn cols cn sch := by
  induction cols with
  | nil => simp at hmem
  | cons c0 cs ih =>
    by_cases hc : (c0.name == cn) = true
    · simp only [overlayColumn, hc, if_true]
      rcases List.mem_cons.mp hmem with he | hcs
      · exact absurd (by simp [← he] at hc; exact hc) hne
      · exact List.mem_cons_of_mem _ hcs
    · simp only [overlayColumn, hc, Bool.false_eq_true, if_false]
      rcases List.mem_cons.mp hmem with he | hcs
      · exact he ▸ List.mem_cons_self _ _
      · exact List.mem_cons_of_mem _ (ih hcs)

theorem mem_updateColumns_of_untouched {entries : List (String × ExtendColumnSchema)}
    {cols : List TableColumnOptions} {c : TableColumnOptions}
    (hmem : c ∈ cols) (h : ∀ e ∈ entries, e.1 ≠ c.name) :
    c ∈ updateColumnsWithExtendSchema cols entries := by
  induction entries generalizing cols with
  | nil => simpa [updateColumnsWithExtendSchema] using hmem
  | cons e rest ih =>
    show c ∈ updateColumnsWithExtendSchema (overlayColumn cols e.1 e.2) rest
    exact ih
      (mem_overlayColumn_of_mem hmem (fun hh => h e (by simp) (hh ▸ rfl)))
      (fun x hx => h x (by simp [hx]))

theorem mem_updateColumns_of_no_entry {entries : List (String × ExtendColumnSchema)}
    {cols : List TableColumnOptions} {c : TableColumnOptions}
    (hmem : c ∈ updateColumnsWithExtendSchema cols entries)
    (h : ∀ e ∈ entries, e.1 ≠ c.name) : c ∈ cols := by
  induction entries generalizing cols with
  | nil => simpa [updateColumnsWithExtendSchema] using hmem
  | cons e rest ih =>
    have hmem' : c ∈ overlayColumn cols e.1 e.2 :=
      ih (by exact hmem) (fun x hx => h x (by simp [hx]))
    exact mem_overlayColumn_of_name_ne hmem' (fun hh => h e (by simp) (hh ▸ rfl))

theorem overlayColumn_hit {cols : List TableColumnOptions} {cn : String}
    {sch : ExtendColumnSchema} {c : TableColumnOptions}
    (hnodup : (cols.map TableColumnOptions.name).Nodup)
    (hmem : c ∈ overlayColumn cols cn sch) (hname : c.name = cn) :
    c.isGenerated = sch.generator.isSome ∧ c.default = sch.default ∧
      c.generationStrategy = sch.generatorStorategy := by
  induction cols with
  | nil => simp [overlayColumn] at hmem
  | cons c0 cs ih =>
    by_cases hc : (c0.name == cn) = true
    · simp only [overlayColumn, hc, if_true] at hmem
      rcases List.mem_cons.mp hmem with he | hcs
      · subst he
        simp [applyExtendToColumn]
      · exfalso
        have hc0 : c0.name = cn := by simpa using hc
        have : c.name ∈ cs.map TableColumnOptions.name := List.mem_map_of_mem _ hcs
        rw [hname, ← hc0] at this
        exact (List.nodup_cons.mp (by simpa using hnodup)).1 this
    · simp only [overlayColumn, hc, Bool.false_eq_true, if_false] at hmem
      rcases List.mem_cons.mp hmem with he | hcs
      · exfalso
        subst he
        rw [hname] at hc
        simp at hc
      · exact ih (List.nodup_cons.mp (by simpa using hnodup)).2 hcs

theorem updateColumns_hit {entries : List (String × ExtendColumnSchema)}
    {cols : List TableColumnOptions} {cn : String} {sch : ExtendColumnSchema}
    (hnodupc : (cols.map TableColumnOptions.name).Nodup)
    (hnodupe : (entries.map Prod.fst).Nodup)
    (hentry : (cn, sch) ∈ entries) :
    ∀ c ∈ updateColumnsWithExtendSchema cols entries, c.name = cn →
      c.isGenerated = sch.generator.isSome ∧ c.default = sch.default ∧
        c.generationStrategy = sch.generatorStorategy := by
  induction entries generalizing cols with
  | nil => simp at hentry
  | cons e rest ih =>
    intro c hmem hname
    rcases List.mem_cons.mp hentry with he | hrest
    · -- the head entry is (cn, sch); its name cannot recur in rest
      subst he
      have hnotin : ∀ x ∈ rest, x.1 ≠ cn := by
        intro x hx hh
        have : cn ∈ rest.map Prod.fst := by
          rw [← hh]; exact List.mem_map_of_mem _ hx
        exact (List.nodup_cons.mp (by simpa using hnodupe)).1 this
      have hmem' : c ∈ overlayColumn cols cn sch :=
        mem_updateColumns_of_no_entry (by exact hmem)
          (fun x hx => hname ▸ hnotin x hx)
      exact overlayColumn_hit hnodupc hmem' hname
    · -- the entry is further down: recurse with the overlaid columns
      have hnodupc' : ((overlayColumn cols e.1 e.2).map TableColumnOptions.name).Nodup := by
        rw [overlayColumn_map_name]; exact hnodupc
      exact ih hnodupc' (List.nodup_cons.mp (by simpa using hnodupe)).2 hrest c
        (by exact hmem) hname

/-- Claim C8: the extended-schema merge never fails: every table survives with
its column names intact; a table with no extended entry and a column with no
matching entry are unchanged; an entry whose column is missing is skipped;
and an entry whose column exists overlays `isGenerated` (generator-marker
presence), `default` and `generationStrategy` onto it. -/
theorem updateTableWithExtendSchema_spec :
    (∀ tables ext, (updateTableWithExtendSchema tables ext).map Prod.fst = tables.map Prod.fst)
    ∧ (∀ tables ext t, t ∈ tables → ext.lookup t.1 = none →
        t ∈ updateTableWithExtendSchema tables ext)
    ∧ (∀ tables ext t entries, t ∈ tables → ext.lookup t.1 = some entries →
        (t.1, { t.2 with columns := updateColumnsWithExtendSchema t.2.columns entries }) ∈
          updateTableWithExtendSchema tables ext)
    ∧ (∀ cols entries,
        (updateColumnsWithExtendSchema cols entries).map TableColumnOptions.name =
          cols.map TableColumnOptions.name)
    ∧ (∀ cols cn sch, (∀ c ∈ cols, c.name ≠ cn) → overlayColumn cols cn sch = cols)
    ∧ (∀ cols entries c, c ∈ cols → (∀ e ∈ entries, e.1 ≠ c.name) →
        c ∈ updateColumnsWithExtendSchema cols entries)
    ∧ (∀ cols entries cn sch,
        (cols.map TableColumnOptions.name).Nodup → (entries.map Prod.fst).Nodup →
        (cn, sch) ∈ entries →
        ∀ c ∈ updateColumnsWithExtendSchema cols entries, c.name = cn →
          c.isGenerated = sch.generator.isSome ∧ c.default = sch.default ∧
            c.generationStrategy = sch.generatorStorategy) := by
  refine ⟨?_, ?_, ?_, ?_, ?_, ?_, ?_⟩
  · intro tables ext
    unfold updateTableWithExtendSchema
    rw [List.map_map]
    apply List.map_congr_left
    intro t _
    cases h : ext.lookup t.1 <;> simp [h]
  · intro tables ext t hmem hnone
    unfold updateTableWithExtendSchema
    have : (fun t => match ext.lookup (Prod.fst t) with
        | some entries =>
          (t.1, { t.2 with columns := updateColumnsWithExtendSchema t.2.columns entries })
        | none => t) t = t := by simp [hnone]
    exact this ▸ List.mem_map_of_mem _ hmem
  · intro tables ext t entries hmem hsome
    unfold updateTableWithExtendSchema
    have : (fun t => match ext.lookup (Prod.fst t) with
        | some entries =>
          (t.1, { t.2 with columns := updateColumnsWithExtendSchema t.2.columns entries })
        | none => t) t =
        (t.1, { t.2 with columns := updateColumnsWithExtendSchema t.2.columns entries }) := by
      simp [hsome]
    exact this ▸ List.mem_map_of_mem _ hmem
  · intro cols entries
    exact updateColumns_map_name entries cols
  · intro cols cn sch h
    exact overlayColumn_skip cols cn sch h
  · intro cols entries c hmem h
    exact mem_updateColumns_of_untouched hmem h
  · intro cols entries cn sch hnc hne hentry
    exact updateColumns_hit hnc hne hentry

/-- Sample data for the C8 witness. -/
def sampleColumnOptions : TableColumnOptions :=
  { name := "id", type := "int64", isNullable := false, isGenerated := false,
    isPrimary := true, isUnique := false, isArray := false, length := "1",
    default := none, generationStrategy := none }

def sampleExtendSchema : ExtendColumnSchema :=
  { generator := some ['g'], default := some ['1'], generatorStorategy := some "increment" }

/-- Witness for C8: the overlay lands on the matching column at a concrete
input, discharging every hypothesis. -/
theorem updateTableWithExtendSchema_spec_witness :
    (applyExtendToColumn sampleColumnOptions sampleExtendSchema).isGenerated =
        sampleExtendSchema.generator.isSome ∧
      (applyExtendToColumn sampleColumnOptions sampleExtendSchema).default =
        sampleExtendSchema.default ∧
      (applyExtendToColumn sampleColumnOptions sampleExtendSchema).generationStrategy =
        sampleExtendSchema.generatorStorategy :=
  updateTableWithExtendSchema_spec.2.2.2.2.2.2 [sampleColumnOptions]
    [("id", sampleExtendSchema)] "id" sampleExtendSchema (by decide) (by decide)
    (by decide) (applyExtendToColumn sampleColumnOptions sampleExtendSchema)
    (by decide) (by decide)

/-! ## Parameter translator (`SpannerDriver.escapeQueryWithParameters`)

The source builds the alternation regex `(:(\.\.\.)?name\b)|...` from the
parameter-map keys in declaration order and performs a global replacement with
a callback.  The scanner below follows JS semantics: try the alternation at
every position left to right; alternatives in key order; within an
alternative, the greedy optional `(\.\.\.)?` tries the spread form first; a
match must end at a word boundary; after a match, scanning resumes past it. -/

/-- A JS parameter value: number, string, boolean, `undefined`, array, or
function (modelled by the text it returns when invoked). -/
inductive Value where
| vint (n : Int)
| vstr (s : List Char)
| vbool (b : Bool)
| vundef
| varr (elems : List Value)
| vfunc (ret : List Char)

/-- Neither an array nor a function. -/
def Value.isScalar : Value → Bool
| .varr _ => false
| .vfunc _ => false
| _ => true

def plainTok (nm : List Char) : List Char := ':' :: nm

def spreadTok (nm : List Char) : List Char := ':' :: '.' :: '.' :: '.' :: nm

/-- The word boundary `\b` after a name whose last character is a word
character: the remainder is empty or starts with a non-word character. -/
def wordBoundaryAfter : List Char → Bool
| [] => true
| c :: _ => !isWordChar c

/-- Match the literal `tok` followed by `\b` at the head of `s`. -/
def matchTok (tok s : List Char) : Option (List Char) :=
  match stripPrefixQ tok s with
  | some r => if wordBoundaryAfter r then some r else none
  | none => none

/-- One alternative `(:(\.\.\.)?name\b)`: the greedy `(\.\.\.)?` tries the
spread form first.  Returns the matched text and the rest of the input. -/
def tryMatchName (nm s : List Char) : Option (List Char × List Char) :=
  match matchTok (spreadTok nm) s with
  | some r => some (spreadTok nm, r)
  | none =>
    match matchTok (plainTok nm) s with
    | some r => some (plainTok nm, r)
    | none => none

/-- The full alternation, alternatives in declaration order of the map keys. -/
def tryMatchParams (s : List Char) : List (String × Value) → Option (List Char × List Char)
| [] => none
| (nm, _) :: rest =>
  match tryMatchName nm.data s with
  | some kr => some kr
  | none => tryMatchParams s rest

/-- `key.substr(0, 4) === ":..." ? key.substr(4) : key.substr(1)`. -/
def keyNameOf (key : List Char) : List Char :=
  if startsWithL [':', '.', '.', '.'] key then key.drop 4 else key.drop 1

/-- Array expansion of the callback: `value.map((v, i) => ...)` producing
`@name0, @name1, ...` (joined with a comma and a space) and appending one
native parameter per element. -/
def expandArray (keyName : List Char) : Nat → List Value → List Char × List (List (String × Value))
| _, [] => ([], [])
| i, [v] =>
  ('@' :: (keyName ++ (toString i).data),
   [[(String.mk (keyName ++ (toString i).data), v)]])
| i, v :: v2 :: vs =>
  ('@' :: ((keyName ++ (toString i).data) ++
      (',' :: ' ' :: (expandArray keyName (i + 1) (v2 :: vs)).1)),
   [(String.mk (keyName ++ (toString i).data), v)] ::
      (expandArray keyName (i + 1) (v2 :: vs)).2)

/-- The replacement callback: functions are invoked and spliced, arrays are
expanded element-wise, anything else becomes one `@name` placeholder with one
appended `[name: value]` parameter object. -/
def replacementFor (params : List (String × Value)) (key : List Char) :
    List Char × List (List (String × Value)) :=
  let keyName := keyNameOf key
  match (params.lookup (String.mk keyName)).getD Value.vundef with
  | .vfunc ret => (ret, [])
  | .varr elems => expandArray keyName 0 elems
  | v => ('@' :: keyName, [[(String.mk keyName, v)]])

/-- The global replacement scan.  The fuel argument serves termination only:
each step consumes at least one input character, so fuel `s.length` is enough
and the zero-fuel fallback is unreachable from `escapeQueryWithParameters`. -/
def scanReplace (params : List (String × Value)) :
    Nat → List Char → List Char × List (List (String × Value))
| _, [] => ([], [])
| 0, c :: rest => (c :: rest, [])
| f + 1, c :: rest =>
  match tryMatchParams (c :: rest) params with
  | some (key, rem) =>
    let re := replacementFor params key
    let rest' := scanReplace params f rem
    (re.1 ++ rest'.1, re.2 ++ rest'.2)
  | none =>
    let rest' := scanReplace params f rest
    (c :: rest'.1, rest'.2)

/-- `SpannerDriver.escapeQueryWithParameters`: non-empty native parameters are
emitted first as one object; with no named parameters the SQL is returned
unchanged; otherwise every match is replaced and its parameters appended. -/
def escapeQueryWithParameters (sql : String)
    (parameters nativeParameters : List (String × Value)) :
    String × List (List (String × Value)) :=
  let escaped0 : List (List (String × Value)) :=
    if nativeParameters.length > 0 then [nativeParameters] else []
  if parameters.length == 0 then (sql, escaped0)
  else
    let r := scanReplace parameters sql.data.length sql.data
    (String.mk r.1, escaped0 ++ r.2)

/-- Some declared name has a token (`:name` or `:...name`, boundary-terminated)
at the head of `s`. -/
def tokenAtHead (names : List String) (s : List Char) : Bool :=
  names.any fun nm =>
    (matchTok (plainTok nm.data) s).isSome || (matchTok (spreadTok nm.data) s).isSome

/-- The number of positions of `s` at which a token of a declared name occurs.
(Token occurrences cannot overlap: a token contains `:` only at its head.) -/
def countTok (names : List String) : List Char → Nat
| [] => 0
| c :: rest => (if tokenAtHead names (c :: rest) then 1 else 0) + countTok names rest

/-- A `:name` or `:...name` token of the given bare name occurs somewhere. -/
def hasTokAny (nm : List Char) : List Char → Bool
| [] => false
| c :: rest =>
  (matchTok (plainTok nm) (c :: rest)).isSome
  || (matchTok (spreadTok nm) (c :: rest)).isSome
  || hasTokAny nm rest

/-! Basic facts about the token matchers. -/

theorem stripPrefixQ_self (p r : List Char) : stripPrefixQ p (p ++ r) = some r := by
  induction p with
  | nil => rfl
  | cons c cs ih => simp [stripPrefixQ, ih]

theorem stripPrefixQ_eq_some {p : List Char} : ∀ {s r : List Char},
    stripPrefixQ p s = some r → s = p ++ r := by
  induction p with
  | nil =>
    intro s r h
    simp only [stripPrefixQ, Option.some.injEq] at h
    simp [h]
  | cons c cs ih =>
    intro s r h
    cases s with
    | nil => simp [stripPrefixQ] at h
    | cons d t =>
      by_cases hc : (c == d) = true
      · have hcd : c = d := by simpa using hc
        simp only [stripPrefixQ, hc, if_true] at h
        simp [← hcd, ih h]
      · simp [stripPrefixQ, hc] at h

theorem matchTok_some {tok s r : List Char} (h : matchTok tok s = some r) :
    s = tok ++ r ∧ wordBoundaryAfter r = true := by
  unfold matchTok at h
  cases hs : stripPrefixQ tok s with
  | none => rw [hs] at h; simp at h
  | some r' =>
    rw [hs] at h
    have h' : (if wordBoundaryAfter r' = true then some r' else none) = some r := h
    by_cases hb : wordBoundaryAfter r' = true
    · rw [if_pos hb] at h'
      have hr : r' = r := by simpa using h'
      exact ⟨hr ▸ stripPrefixQ_eq_some hs, hr ▸ hb⟩
    · rw [if_neg hb] at h'; simp at h'

theorem matchTok_cons (p0 : Char) (p' : List Char) (c : Char) (t : List Char) :
    matchTok (p0 :: p') (c :: t) = if p0 == c then matchTok p' t else none := by
  by_cases h : (p0 == c) = true <;> simp [matchTok, stripPrefixQ, h]

theorem wordChar_ne_colon {c : Char} (h : isWordChar c = true) : c ≠ ':' :=
  fun he => absurd (he ▸ h) (by decide)

theorem wordChar_ne_at {c : Char} (h : isWordChar c = true) : c ≠ '@' :=
  fun he => absurd (he ▸ h) (by decide)

theorem wordChar_ne_dot {c : Char} (h : isWordChar c = true) : c ≠ '.' :=
  fun he => absurd (he ▸ h) (by decide)

theorem tryMatchName_some {nm s key r : List Char} (h : tryMatchName nm s = some (key, r)) :
    (key = spreadTok nm ∨ key = plainTok nm) ∧ s = key ++ r ∧ wordBoundaryAfter r = true := by
  unfold tryMatchName at h
  cases h1 : matchTok (spreadTok nm) s with
  | some r1 =>
    rw [h1] at h
    have : spreadTok nm = key ∧ r1 = r := by simpa using h
    obtain ⟨hk, hr⟩ := this
    subst hk; subst hr
    exact ⟨Or.inl rfl, (matchTok_some h1).1, (matchTok_some h1).2⟩
  | none =>
    rw [h1] at h
    cases h2 : matchTok (plainTok nm) s with
    | some r2 =>
      rw [h2] at h
      have : plainTok nm = key ∧ r2 = r := by simpa using h
      obtain ⟨hk, hr⟩ := this
      subst hk; subst hr
      exact ⟨Or.inr rfl, (matchTok_some h2).1, (matchTok_some h2).2⟩
    | none => rw [h2] at h; simp at h

theorem tryMatchParams_some : ∀ {params : List (String × Value)} {s key r : List Char},
    tryMatchParams s params = some (key, r) →
    ∃ nm, nm ∈ params.map Prod.fst ∧ tryMatchName nm.data s = some (key, r) := by
  intro params
  induction params with
  | nil => intro s key r h; simp [tryMatchParams] at h
  | cons p rest ih =>
    intro s key r h
    obtain ⟨nm, v⟩ := p
    simp only [tryMatchParams] at h
    cases h1 : tryMatchName nm.data s with
    | some kr =>
      rw [h1] at h
      have : kr = (key, r) := by simpa using h
      exact ⟨nm, by simp, this ▸ h1⟩
    | none =>
      rw [h1] at h
      obtain ⟨nm', hmem, hmatch⟩ := ih h
      exact ⟨nm', by simp [hmem], hmatch⟩

theorem tryMatchParams_isSome (s : List Char) (params : List (String × Value)) :
    (tryMatchParams s params).isSome = tokenAtHead (params.map Prod.fst) s := by
  induction params with
  | nil => rfl
  | cons p rest ih =>
    obtain ⟨nm, v⟩ := p
    simp only [tryMatchParams, tokenAtHead, List.map_cons, List.any_cons]
    cases h1 : matchTok (spreadTok nm.data) s with
    | some r1 => simp [tryMatchName, h1]
    | none =>
      cases h2 : matchTok (plainTok nm.data) s with
      | some r2 => simp [tryMatchName, h1, h2]
      | none =>
        simp only [tryMatchName, h1, h2]
        rw [ih]
        simp [tokenAtHead, h1, h2]

theorem tokenAtHead_ne_colon {c : Char} (names : List String) (x : List Char)
    (hc : c ≠ ':') : tokenAtHead names (c :: x) = false := by
  unfold tokenAtHead
  rw [List.any_eq_false]
  intro nm _
  have hcb : (':' == c) = false := beq_eq_false_iff_ne.mpr (fun h => hc h.symm)
  have h1 : matchTok (plainTok nm.data) (c :: x) = none := by
    rw [plainTok, matchTok_cons, if_neg (by simp [hcb])]
  have h2 : matchTok (spreadTok nm.data) (c :: x) = none := by
    rw [spreadTok, matchTok_cons, if_neg (by simp [hcb])]
  simp [h1, h2]

theorem countTok_append_no_colon {l : List Char} (names : List String) (t : List Char)
    (h : ∀ c ∈ l, c ≠ ':') : countTok names (l ++ t) = countTok names t := by
  induction l with
  | nil => rfl
  | cons c l' ih =>
    have hc := h c (by simp)
    show (if tokenAtHead names (c :: (l' ++ t)) then 1 else 0) + countTok names (l' ++ t) =
      countTok names t
    rw [tokenAtHead_ne_colon names _ hc, ih (fun x hx => h x (by simp [hx]))]
    simp

theorem hasTokAny_append_no_colon {u : List Char} (nm t : List Char)
    (h : ∀ c ∈ u, c ≠ ':') : hasTokAny nm (u ++ t) = hasTokAny nm t := by
  induction u with
  | nil => rfl
  | cons c u' ih =>
    have hc := h c (by simp)
    have hcb : (':' == c) = false := beq_eq_false_iff_ne.mpr (fun hh => hc hh.symm)
    have h1 : matchTok (plainTok nm) (c :: (u' ++ t)) = none := by
      rw [plainTok, matchTok_cons, if_neg (by simp [hcb])]
    have h2 : matchTok (spreadTok nm) (c :: (u' ++ t)) = none := by
      rw [spreadTok, matchTok_cons, if_neg (by simp [hcb])]
    show ((matchTok (plainTok nm) (c :: (u' ++ t))).isSome
        || (matchTok (spreadTok nm) (c :: (u' ++ t))).isSome
        || hasTokAny nm (u' ++ t)) = hasTokAny nm t
    rw [h1, h2, ih (fun x hx => h x (by simp [hx]))]
    simp

theorem countTok_nil_names : ∀ s : List Char, countTok [] s = 0
| [] => rfl
| _ :: rest => by
  show (if tokenAtHead [] _ then 1 else 0) + countTok [] rest = 0
  rw [countTok_nil_names rest]
  rfl

theorem keyNameOf_spread (nm : List Char) : keyNameOf (spreadTok nm) = nm := rfl

theorem keyNameOf_plain {nm : List Char} (h : ∀ c ∈ nm, isWordChar c = true) :
    keyNameOf (plainTok nm) = nm := by
  cases nm with
  | nil => rfl
  | cons c r =>
    have hc : ('.' == c) = false :=
      beq_eq_false_iff_ne.mpr (fun hh => wordChar_ne_dot (h c (by simp)) hh.symm)
    unfold keyNameOf plainTok startsWithL
    simp [stripPrefixQ, hc]

theorem string_mk_data (s : String) : String.mk s.data = s := rfl

theorem lookup_eq_some_of_mem_fst : ∀ {l : List (String × Value)} {nm : String},
    nm ∈ l.map Prod.fst → ∃ v, l.lookup nm = some v := by
  intro l
  induction l with
  | nil => intro nm h; simp at h
  | cons p rest ih =>
    intro nm h
    obtain ⟨k, v⟩ := p
    by_cases hk : (nm == k) = true
    · exact ⟨v, by simp [List.lookup, hk]⟩
    · have hmem : nm ∈ rest.map Prod.fst := by
        simp only [List.map_cons, List.mem_cons] at h
        rcases h with h | h
        · exact absurd (by simp [h]) hk
        · exact h
      obtain ⟨v', hv⟩ := ih hmem
      exact ⟨v', by simp [List.lookup, hk, hv]⟩

theorem mem_of_lookup_eq_some : ∀ {l : List (String × Value)} {k : String} {v : Value},
    l.lookup k = some v → (k, v) ∈ l := by
  intro l
  induction l with
  | nil => intro k v h; simp [List.lookup] at h
  | cons p rest ih =>
    intro k v h
    obtain ⟨k0, v0⟩ := p
    by_cases hk : (k == k0) = true
    · have hk' : k = k0 := by simpa using hk
      simp only [List.lookup, hk, if_true] at h
      have : v0 = v := by simpa using h
      simp [← hk', ← this]
    · simp only [List.lookup, hk] at h
      exact List.mem_cons_of_mem _ (ih h)

theorem spreadTok_tail_no_colon {nm : List Char} (h : ∀ c ∈ nm, isWordChar c = true) :
    ∀ c ∈ ('.' :: '.' :: '.' :: nm), c ≠ ':' := by
  intro c hc
  simp only [List.mem_cons] at hc
  rcases hc with rfl | rfl | rfl | hc
  · decide
  · decide
  · decide
  · exact wordChar_ne_colon (h c hc)

/-- The replacement emitted for a scalar-valued key: one `@name` placeholder
and exactly one appended parameter object. -/
theorem replacementFor_scalar {params : List (String × Value)}
    (hw : ∀ p ∈ params, p.1.data ≠ [] ∧ ∀ c ∈ p.1.data, isWordChar c = true)
    (hs : ∀ p ∈ params, p.2.isScalar = true)
    {nm : String} (hnm : nm ∈ params.map Prod.fst)
    {key : List Char} (hkey : key = spreadTok nm.data ∨ key = plainTok nm.data) :
    ∃ v : Value, replacementFor params key = ('@' :: nm.data, [[(nm, v)]]) := by
  have hkn : keyNameOf key = nm.data := by
    rcases hkey with h | h
    · rw [h]; exact keyNameOf_spread nm.data
    · rw [h]
      obtain ⟨p, hp, hfst⟩ := List.mem_map.mp hnm
      exact keyNameOf_plain (hfst ▸ (hw p hp).2)
  obtain ⟨v, hv⟩ := lookup_eq_some_of_mem_fst hnm
  have hvs : v.isScalar = true := hs _ (mem_of_lookup_eq_some hv)
  refine ⟨v, ?_⟩
  simp only [replacementFor, hkn, string_mk_data, hv, Option.getD_some]
  cases v with
  | varr es => simp [Value.isScalar] at hvs
  | vfunc r => simp [Value.isScalar] at hvs
  | vint n => rfl
  | vstr s => rfl
  | vbool b => rfl
  | vundef => rfl

theorem matchTok_nil_isSome (t : List Char) :
    (matchTok [] t).isSome = wordBoundaryAfter t := by
  by_cases hb : wordBoundaryAfter t = true <;> simp [matchTok, stripPrefixQ, hb]

/-- A matched key is `:`-headed, and its tail contains no further colon. -/
theorem key_shape {params : List (String × Value)}
    (hw : ∀ p ∈ params, p.1.data ≠ [] ∧ ∀ c ∈ p.1.data, isWordChar c = true)
    {nm : String} (hnm : nm ∈ params.map Prod.fst)
    {key : List Char} (hkey : key = spreadTok nm.data ∨ key = plainTok nm.data) :
    ∃ kt, key = ':' :: kt ∧ ∀ c ∈ kt, c ≠ ':' := by
  have hwordy : ∀ c ∈ nm.data, isWordChar c = true := by
    obtain ⟨p, hp, hfst⟩ := List.mem_map.mp hnm
    exact hfst ▸ (hw p hp).2
  rcases hkey with hk | hk
  · exact ⟨'.' :: '.' :: '.' :: nm.data, hk, spreadTok_tail_no_colon hwordy⟩
  · exact ⟨nm.data, hk, fun c hc => wordChar_ne_colon (hwordy c hc)⟩

/-- The number of native parameters appended by the replacement scan equals
the number of token occurrences, when all parameter values are scalar. -/
theorem scan_entry_count {params : List (String × Value)}
    (hw : ∀ p ∈ params, p.1.data ≠ [] ∧ ∀ c ∈ p.1.data, isWordChar c = true)
    (hs : ∀ p ∈ params, p.2.isScalar = true) :
    ∀ f s, s.length ≤ f →
      ((scanReplace params f s).2).length = countTok (params.map Prod.fst) s := by
  intro f
  induction f with
  | zero =>
    intro s hlen
    have hnil : s = [] := List.eq_nil_of_length_eq_zero (Nat.le_zero.mp hlen)
    subst hnil
    rfl
  | succ f ih =>
    intro s hlen
    cases s with
    | nil => rfl
    | cons c rest =>
      have hlen' : rest.length ≤ f := by
        simp only [List.length_cons] at hlen
        omega
      cases hm : tryMatchParams (c :: rest) params with
      | none =>
        have heq : scanReplace params (f + 1) (c :: rest) =
            (c :: (scanReplace params f rest).1, (scanReplace params f rest).2) := by
          simp only [scanReplace, hm]
        rw [heq]
        have htk : tokenAtHead (params.map Prod.fst) (c :: rest) = false := by
          rw [← tryMatchParams_isSome, hm]; rfl
        show (scanReplace params f rest).2.length =
          (if tokenAtHead (params.map Prod.fst) (c :: rest) then 1 else 0) +
            countTok (params.map Prod.fst) rest
        rw [htk, ih rest hlen']
        simp
      | some kr =>
        obtain ⟨key, rem⟩ := kr
        obtain ⟨nm, hnm, hmatch⟩ := tryMatchParams_some hm
        obtain ⟨hform, hsplit, hbdry⟩ := tryMatchName_some hmatch
        obtain ⟨v, hrepl⟩ := replacementFor_scalar hw hs hnm hform
        obtain ⟨kt, hkey, hktnc⟩ := key_shape hw hnm hform
        have heq : scanReplace params (f + 1) (c :: rest) =
            ((replacementFor params key).1 ++ (scanReplace params f rem).1,
             (replacementFor params key).2 ++ (scanReplace params f rem).2) := by
          simp only [scanReplace, hm]
        have hrest : rest = kt ++ rem ∧ c = ':' := by
          rw [hkey, List.cons_append] at hsplit
          exact ⟨(List.cons_eq_cons.mp hsplit).2, (List.cons_eq_cons.mp hsplit).1⟩
        have hremlen : rem.length ≤ f := by
          have := congrArg List.length hrest.1
          simp only [List.length_append] at this
          omega
        rw [heq]
        have htk : tokenAtHead (params.map Prod.fst) (c :: rest) = true := by
          rw [← tryMatchParams_isSome, hm]; rfl
        show ((replacementFor params key).2 ++ (scanReplace params f rem).2).length =
          (if tokenAtHead (params.map Prod.fst) (c :: rest) then 1 else 0) +
            countTok (params.map Prod.fst) rest
        rw [htk, hrepl, hrest.1,
          countTok_append_no_colon (params.map Prod.fst) rem hktnc]
        simp [ih rem hremlen, Nat.add_comm]

/-- The scan's output starts at a word boundary only if the input did. -/
theorem scan_boundary (params : List (String × Value)) :
    ∀ f s, wordBoundaryAfter ((scanReplace params f s).1) = true →
      wordBoundaryAfter s = true := by
  intro f s
  cases f with
  | zero =>
    cases s with
    | nil => intro _; rfl
    | cons c rest => intro h; exact h
  | succ f =>
    cases s with
    | nil => intro _; rfl
    | cons c rest =>
      cases hm : tryMatchParams (c :: rest) params with
      | none =>
        intro h
        have heq : (scanReplace params (f + 1) (c :: rest)).1 =
            c :: (scanReplace params f rest).1 := by
          simp only [scanReplace, hm]
        rw [heq] at h
        exact h
      | some kr =>
        intro _
        obtain ⟨key, rem⟩ := kr
        obtain ⟨nm, hnm, hmatch⟩ := tryMatchParams_some hm
        obtain ⟨hform, hsplit, _⟩ := tryMatchName_some hmatch
        have hc : c = ':' := by
          rcases hform with hk | hk <;>
          · rw [hk] at hsplit
            simp only [spreadTok, plainTok, List.cons_append] at hsplit
            exact (List.cons_eq_cons.mp hsplit).1
        subst hc
        rfl

/-- When every value is scalar, a boundary-terminated word-or-dot pattern
matching at the head of the scan output must already match at the head of the
input: replacements start with `@` and copied characters agree. -/
theorem scan_reflect_prefix {params : List (String × Value)}
    (hw : ∀ p ∈ params, p.1.data ≠ [] ∧ ∀ c ∈ p.1.data, isWordChar c = true)
    (hs : ∀ p ∈ params, p.2.isScalar = true) :
    ∀ f s, s.length ≤ f → ∀ p : List Char, p ≠ [] →
      (∀ c ∈ p, isWordChar c = true ∨ c = '.') →
      (matchTok p ((scanReplace params f s).1)).isSome = true →
      (matchTok p s).isSome = true := by
  intro f
  induction f with
  | zero =>
    intro s hlen p hp _ h
    have hnil : s = [] := List.eq_nil_of_length_eq_zero (Nat.le_zero.mp hlen)
    subst hnil
    cases p with
    | nil => exact absurd rfl hp
    | cons p0 p' => simp [matchTok, stripPrefixQ] at h
  | succ f ih =>
    intro s hlen p hp hpc h
    cases s with
    | nil =>
      cases p with
      | nil => exact absurd rfl hp
      | cons p0 p' => simp [matchTok, stripPrefixQ] at h
    | cons c rest =>
      have hlen' : rest.length ≤ f := by
        simp only [List.length_cons] at hlen
        omega
      cases hm : tryMatchParams (c :: rest) params with
      | none =>
        have heq : (scanReplace params (f + 1) (c :: rest)).1 =
            c :: (scanReplace params f rest).1 := by
          simp only [scanReplace, hm]
        rw [heq] at h
        cases p with
        | nil => exact absurd rfl hp
        | cons p0 p' =>
          rw [matchTok_cons] at h ⊢
          by_cases hpc0 : (p0 == c) = true
          · rw [if_pos hpc0] at h ⊢
            cases p' with
            | nil =>
              rw [matchTok_nil_isSome] at h ⊢
              exact scan_boundary params f rest h
            | cons q0 q' =>
              exact ih rest hlen' (q0 :: q') (by simp)
                (fun x hx => hpc x (by simp [hx])) h
          · rw [if_neg hpc0] at h; simp at h
      | some kr =>
        obtain ⟨key, rem⟩ := kr
        obtain ⟨nm, hnm, hmatch⟩ := tryMatchParams_some hm
        obtain ⟨hform, hsplit, hbdry⟩ := tryMatchName_some hmatch
        obtain ⟨v, hrepl⟩ := replacementFor_scalar hw hs hnm hform
        have heq : (scanReplace params (f + 1) (c :: rest)).1 =
            (replacementFor params key).1 ++ (scanReplace params f rem).1 := by
          simp only [scanReplace, hm]
        rw [heq, hrepl] at h
        cases p with
        | nil => exact absurd rfl hp
        | cons p0 p' =>
          exfalso
          have hh : ('@' :: nm.data, [[(nm, v)]]).1 ++ (scanReplace params f rem).1 =
              '@' :: (nm.data ++ (scanReplace params f rem).1) := rfl
          rw [hh, matchTok_cons] at h
          have hne : (p0 == '@') = false := by
            rcases hpc p0 (by simp) with hword | hdot
            · exact beq_eq_false_iff_ne.mpr (wordChar_ne_at hword)
            · exact beq_eq_false_iff_ne.mpr (by rw [hdot]; decide)
          rw [if_neg (by simp [hne])] at h
          simp at h

/-- After the scan, no token of any declared name remains in the output, when
every value is scalar. -/
theorem scan_no_tokens {params : List (String × Value)}
    (hw : ∀ p ∈ params, p.1.data ≠ [] ∧ ∀ c ∈ p.1.data, isWordChar c = true)
    (hs : ∀ p ∈ params, p.2.isScalar = true) :
    ∀ f s, s.length ≤ f → ∀ nm ∈ params.map Prod.fst,
      hasTokAny nm.data ((scanReplace params f s).1) = false := by
  intro f
  induction f with
  | zero =>
    intro s hlen nm _
    have hnil : s = [] := List.eq_nil_of_length_eq_zero (Nat.le_zero.mp hlen)
    subst hnil
    rfl
  | succ f ih =>
    intro s hlen nm hnm
    have hwordy : nm.data ≠ [] ∧ ∀ c ∈ nm.data, isWordChar c = true := by
      obtain ⟨p, hp, hfst⟩ := List.mem_map.mp hnm
      exact hfst ▸ hw p hp
    cases s with
    | nil => rfl
    | cons c rest =>
      have hlen' : rest.length ≤ f := by
        simp only [List.length_cons] at hlen
        omega
      cases hm : tryMatchParams (c :: rest) params with
      | none =>
        have heq : (scanReplace params (f + 1) (c :: rest)).1 =
            c :: (scanReplace params f rest).1 := by
          simp only [scanReplace, hm]
        rw [heq]
        have h3 := ih rest hlen' nm hnm
        show ((matchTok (plainTok nm.data) (c :: (scanReplace params f rest).1)).isSome
          || (matchTok (spreadTok nm.data) (c :: (scanReplace params f rest).1)).isSome
          || hasTokAny nm.data ((scanReplace params f rest).1)) = false
        rw [h3]
        by_cases hc : (':' == c) = true
        · have hceq : c = ':' := by
            have := hc; simp only [beq_iff_eq] at this; exact this.symm
          have h1 : (matchTok (plainTok nm.data) (c :: (scanReplace params f rest).1)).isSome
              = false := by
            rw [plainTok, matchTok_cons, if_pos hc]
            by_cases hx : (matchTok nm.data ((scanReplace params f rest).1)).isSome = true
            · exfalso
              have hrest := scan_reflect_prefix hw hs f rest hlen' nm.data hwordy.1
                (fun x hxx => Or.inl (hwordy.2 x hxx)) hx
              have htk : tokenAtHead (params.map Prod.fst) (c :: rest) = true := by
                unfold tokenAtHead
                rw [List.any_eq_true]
                refine ⟨nm, hnm, ?_⟩
                rw [plainTok, matchTok_cons, if_pos (by simp [hceq])]
                simp [hrest]
              rw [← tryMatchParams_isSome, hm] at htk
              simp at htk
            · simpa using hx
          have h2 : (matchTok (spreadTok nm.data) (c :: (scanReplace params f rest).1)).isSome
              = false := by
            rw [spreadTok, matchTok_cons, if_pos hc]
            by_cases hx : (matchTok ('.' :: '.' :: '.' :: nm.data)
                ((scanReplace params f rest).1)).isSome = true
            · exfalso
              have hdots : ∀ x ∈ ('.' :: '.' :: '.' :: nm.data),
                  isWordChar x = true ∨ x = '.' := by
                intro x hxx
                simp only [List.mem_cons] at hxx
                rcases hxx with rfl | rfl | rfl | hxx
                · exact Or.inr rfl
                · exact Or.inr rfl
                · exact Or.inr rfl
                · exact Or.inl (hwordy.2 x hxx)
              have hrest := scan_reflect_prefix hw hs f rest hlen'
                ('.' :: '.' :: '.' :: nm.data) (by simp) hdots hx
              have htk : tokenAtHead (params.map Prod.fst) (c :: rest) = true := by
                unfold tokenAtHead
                rw [List.any_eq_true]
                refine ⟨nm, hnm, ?_⟩
                rw [spreadTok, matchTok_cons, if_pos (by simp [hceq])]
                simp [hrest]
              rw [← tryMatchParams_isSome, hm] at htk
              simp at htk
            · simpa using hx
          rw [h1, h2]
          rfl
        · have h1 : (matchTok (plainTok nm.data) (c :: (scanReplace params f rest).1)).isSome
              = false := by
            rw [plainTok, matchTok_cons, if_neg (by simp [hc])]
            rfl
          have h2 : (matchTok (spreadTok nm.data) (c :: (scanReplace params f rest).1)).isSome
              = false := by
            rw [spreadTok, matchTok_cons, if_neg (by simp [hc])]
            rfl
          rw [h1, h2]
          rfl
      | some kr =>
        obtain ⟨key, rem⟩ := kr
        obtain ⟨nm', hnm', hmatch⟩ := tryMatchParams_some hm
        obtain ⟨hform, hsplit, hbdry⟩ := tryMatchName_some hmatch
        obtain ⟨v, hrepl⟩ := replacementFor_scalar hw hs hnm' hform
        obtain ⟨kt, hkey, _⟩ := key_shape hw hnm' hform
        have hremlen : rem.length ≤ f := by
          have hl := congrArg List.length hsplit
          rw [hkey] at hl
          simp only [List.length_append, List.length_cons] at hl
          omega
        have heq : (scanReplace params (f + 1) (c :: rest)).1 =
            (replacementFor params key).1 ++ (scanReplace params f rem).1 := by
          simp only [scanReplace, hm]
        rw [heq, hrepl]
        have hh : ('@' :: nm'.data, [[(nm', v)]]).1 ++ (scanReplace params f rem).1 =
            ('@' :: nm'.data) ++ (scanReplace params f rem).1 := rfl
        rw [hh, hasTokAny_append_no_colon nm.data _ ?_]
        · exact ih rem hremlen nm hnm
        · intro x hx
          simp only [List.mem_cons] at hx
          rcases hx with rfl | hx
          · decide
          · obtain ⟨p, hp, hfst⟩ := List.mem_map.mp hnm'
            exact wordChar_ne_colon ((hfst ▸ (hw p hp).2) x hx)

/-- Claim C3 (amended): for SQL whose parameter map holds no array-valued and
no function-valued parameter (all its names nonempty word strings),
`escapeQueryWithParameters` appends exactly one native parameter entry per
*occurrence* of a declared parameter token in the SQL — not per distinct
name — and the rewritten SQL contains no remaining `:name` (or `:...name`)
token of any declared name. -/
theorem escapeQuery_per_occurrence (sql : String) (params : List (String × Value))
    (hw : ∀ p ∈ params, p.1.data ≠ [] ∧ ∀ c ∈ p.1.data, isWordChar c = true)
    (hs : ∀ p ∈ params, p.2.isScalar = true) :
    ((escapeQueryWithParameters sql params []).2).length =
      countTok (params.map Prod.fst) sql.data
    ∧ ∀ p ∈ params,
        hasTokAny p.1.data (escapeQueryWithParameters sql params []).1.data = false := by
  by_cases hp : params.length = 0
  · have hnil : params = [] := List.eq_nil_of_length_eq_zero hp
    subst hnil
    constructor
    · simp [escapeQueryWithParameters, countTok_nil_names]
    · intro p hp'
      simp at hp'
  · have hne : (params.length == 0) = false := by simp [hp]
    have hesc : escapeQueryWithParameters sql params [] =
        (String.mk (scanReplace params sql.data.length sql.data).1,
         (scanReplace params sql.data.length sql.data).2) := by
      simp [escapeQueryWithParameters, hne]
    rw [hesc]
    constructor
    · exact scan_entry_count hw hs sql.data.length sql.data (Nat.le_refl _)
    · intro p hpm
      exact scan_no_tokens hw hs sql.data.length sql.data (Nat.le_refl _) p.1
        (List.mem_map_of_mem _ hpm)

/-- Witness for C3's amended theorem at a concrete input: one scalar parameter
occurring once. -/
theorem escapeQuery_per_occurrence_witness :
    ((escapeQueryWithParameters ":a" [("a", Value.vint 1)] []).2).length =
      countTok ([("a", Value.vint 1)].map Prod.fst) (":a" : String).data
    ∧ ∀ p ∈ [("a", Value.vint 1)],
        hasTokAny p.1.data (escapeQueryWithParameters ":a" [("a", Value.vint 1)] []).1.data =
          false :=
  escapeQuery_per_occurrence ":a" [("a", Value.vint 1)] (by decide) (by decide)

/-- Counterexample to C3 as stated: in `":a :a"` the single distinct declared
name `a` occurs, yet two native parameter entries are appended — one per
occurrence, not one per distinct name. -/
theorem escapeQuery_distinct_name_counterexample :
    hasTokAny ("a" : String).data (":a :a" : String).data = true
    ∧ ((escapeQueryWithParameters ":a :a" [("a", Value.vint 1)] []).2).length ≠ 1 := by
  constructor
  · decide
  · decide

/-! Lemmas for the array-expansion claims: behaviour of the scan at a single
`:...name` token occurrence. -/

/-- Two word-strings followed by a boundary: a match of one over the other
forces equality. -/
theorem matchTok_word_eq : ∀ {a b post : List Char},
    (∀ c ∈ a, isWordChar c = true) → (∀ c ∈ b, isWordChar c = true) →
    wordBoundaryAfter post = true →
    (matchTok b (a ++ post)).isSome = true → b = a := by
  intro a
  induction a with
  | nil =>
    intro b post _ hb hpost h
    cases b with
    | nil => rfl
    | cons b0 b' =>
      cases post with
      | nil => simp [matchTok, stripPrefixQ] at h
      | cons d t =>
        rw [List.nil_append, matchTok_cons] at h
        have hd : isWordChar d = false := by
          have hp := hpost
          simp only [wordBoundaryAfter, Bool.not_eq_true'] at hp
          exact hp
        have hne : (b0 == d) = false := by
          refine beq_eq_false_iff_ne.mpr (fun he => ?_)
          have hb0 : isWordChar b0 = true := hb b0 (by simp)
          rw [he, hd] at hb0
          exact Bool.false_ne_true hb0
        rw [if_neg (by simp [hne])] at h
        simp at h
  | cons a0 a' ih =>
    intro b post ha hb hpost h
    cases b with
    | nil =>
      rw [List.cons_append, matchTok_nil_isSome] at h
      have hbd : wordBoundaryAfter (a0 :: (a' ++ post)) = false := by
        simp [wordBoundaryAfter, ha a0 (by simp)]
      rw [hbd] at h
      exact absurd h (by simp)
    | cons b0 b' =>
      rw [List.cons_append, matchTok_cons] at h
      by_cases hbe : (b0 == a0) = true
      · rw [if_pos hbe] at h
        have hba : b0 = a0 := by simpa using hbe
        rw [hba,
          ih (fun c hc => ha c (by simp [hc])) (fun c hc => hb c (by simp [hc])) hpost h]
      · rw [if_neg hbe] at h; simp at h

/-- A different declared name cannot match at a `:...name` token occurrence. -/
theorem tryMatchName_none_at_spread {nm0 nmT post : List Char}
    (h0 : nm0 ≠ [] ∧ ∀ c ∈ nm0, isWordChar c = true)
    (hT : ∀ c ∈ nmT, isWordChar c = true)
    (hne : nm0 ≠ nmT)
    (hpost : wordBoundaryAfter post = true) :
    tryMatchName nm0 (spreadTok nmT ++ post) = none := by
  have hstep : matchTok (spreadTok nm0) (spreadTok nmT ++ post) =
      matchTok nm0 (nmT ++ post) := by
    simp [spreadTok, List.cons_append, matchTok_cons]
  have hspread : matchTok (spreadTok nm0) (spreadTok nmT ++ post) = none := by
    rw [hstep]
    by_cases hx : (matchTok nm0 (nmT ++ post)).isSome = true
    · exact absurd (matchTok_word_eq hT h0.2 hpost hx) hne
    · exact Option.not_isSome_iff_eq_none.mp (by simpa using hx)
  have hplain : matchTok (plainTok nm0) (spreadTok nmT ++ post) = none := by
    obtain ⟨c0, r0, rfl⟩ := List.exists_cons_of_ne_nil h0.1
    have hnd : (c0 == '.') = false :=
      beq_eq_false_iff_ne.mpr (wordChar_ne_dot (h0.2 c0 (by simp)))
    simp [plainTok, spreadTok, List.cons_append, matchTok_cons, hnd]
  simp [tryMatchName, hspread, hplain]

/-- At a `:...name` token whose name is declared (with distinct declared
names), the alternation matches exactly that token. -/
theorem tryMatchParams_at_spread : ∀ {params : List (String × Value)} {nmT : String}
    {v : Value} {post : List Char},
    (∀ p ∈ params, p.1.data ≠ [] ∧ ∀ c ∈ p.1.data, isWordChar c = true) →
    (params.map Prod.fst).Nodup →
    (nmT, v) ∈ params →
    wordBoundaryAfter post = true →
    tryMatchParams (spreadTok nmT.data ++ post) params =
      some (spreadTok nmT.data, post) := by
  intro params
  induction params with
  | nil => intro nmT v post _ _ hmem _; simp at hmem
  | cons p rest ih =>
    intro nmT v post hw hnd hmem hpost
    obtain ⟨nm0, v0⟩ := p
    rcases List.mem_cons.mp hmem with heq | hrest
    · have hn : nm0 = nmT := ((Prod.mk.injEq _ _ _ _).mp heq.symm).1
      subst hn
      have hmk : matchTok (spreadTok nm0.data) (spreadTok nm0.data ++ post) = some post := by
        unfold matchTok
        rw [stripPrefixQ_self]
        show (if wordBoundaryAfter post = true then some post else none) = some post
        rw [if_pos hpost]
      simp [tryMatchParams, tryMatchName, hmk]
    · have hne : nm0 ≠ nmT := by
        intro he
        have hmemn : nmT ∈ rest.map Prod.fst := List.mem_map_of_mem Prod.fst hrest
        rw [← he] at hmemn
        exact (List.nodup_cons.mp (by simpa using hnd)).1 hmemn
      have hne' : nm0.data ≠ nmT.data := fun hd =>
        hne ((string_mk_data nm0).symm.trans (hd ▸ string_mk_data nmT))
      have hT : ∀ c ∈ nmT.data, isWordChar c = true :=
        (hw (nmT, v) (List.mem_cons_of_mem _ hrest)).2
      have hnone := tryMatchName_none_at_spread (hw (nm0, v0) (by simp)) hT hne' hpost
      simp only [tryMatchParams, hnone]
      exact ih (fun q hq => hw q (List.mem_cons_of_mem _ hq))
        (List.nodup_cons.mp (by simpa using hnd)).2 hrest hpost

/-- A string containing no token of any declared name is copied unchanged and
appends no parameters. -/
theorem scan_untouched {params : List (String × Value)} : ∀ {post : List Char},
    (∀ nm ∈ params.map Prod.fst, hasTokAny nm.data post = false) →
    ∀ f, scanReplace params f post = (post, []) := by
  intro post
  induction post with
  | nil => intro _ f; cases f <;> rfl
  | cons c rest ih =>
    intro h f
    have hsplit : ∀ nm ∈ params.map Prod.fst,
        (matchTok (plainTok nm.data) (c :: rest) = none ∧
         matchTok (spreadTok nm.data) (c :: rest) = none) ∧
        hasTokAny nm.data rest = false := by
      intro nm hnm
      have hh : ((matchTok (plainTok nm.data) (c :: rest)).isSome
          || (matchTok (spreadTok nm.data) (c :: rest)).isSome
          || hasTokAny nm.data rest) = false := h nm hnm
      simpa using hh
    cases f with
    | zero => rfl
    | succ f =>
      have hm : tryMatchParams (c :: rest) params = none := by
        refine Option.not_isSome_iff_eq_none.mp ?_
        rw [tryMatchParams_isSome]
        have htk : tokenAtHead (params.map Prod.fst) (c :: rest) = false := by
          unfold tokenAtHead
          rw [List.any_eq_false]
          intro nm hnm
          obtain ⟨⟨h1, h2⟩, _⟩ := hsplit nm hnm
          simp [h1, h2]
        simp [htk]
      have heq : scanReplace params (f + 1) (c :: rest) =
          (c :: (scanReplace params f rest).1, (scanReplace params f rest).2) := by
        simp only [scanReplace, hm]
      rw [heq, ih (fun nm hnm => (hsplit nm hnm).2) f]

/-- With distinct declared names, the lookup in the callback returns the
declared value. -/
theorem lookup_of_mem_nodup : ∀ {l : List (String × Value)} {k : String} {v : Value},
    (k, v) ∈ l → (l.map Prod.fst).Nodup → l.lookup k = some v := by
  intro l
  induction l with
  | nil => intro k v hmem _; simp at hmem
  | cons p rest ih =>
    intro k v hmem hnd
    obtain ⟨k0, v0⟩ := p
    rcases List.mem_cons.mp hmem with heq | hrest
    · obtain ⟨hk, hv⟩ := (Prod.mk.injEq _ _ _ _).mp heq
      subst hk; subst hv
      simp [List.lookup]
    · have hkne : k ≠ k0 := by
        intro he
        have hmemn : k ∈ rest.map Prod.fst := List.mem_map_of_mem Prod.fst hrest
        rw [he] at hmemn
        exact (List.nodup_cons.mp (by simpa using hnd)).1 hmemn
      have hkb : (k == k0) = false := beq_eq_false_iff_ne.mpr hkne
      simp only [List.lookup, hkb]
      exact ih hrest (List.nodup_cons.mp (by simpa using hnd)).2

/-- The callback's output at a `:...name` key bound to an array. -/
theorem replacementFor_array {params : List (String × Value)} {nmT : String}
    {vs : List Value} (hnd : (params.map Prod.fst).Nodup)
    (hmem : (nmT, Value.varr vs) ∈ params) :
    replacementFor params (spreadTok nmT.data) = expandArray nmT.data 0 vs := by
  have hlook : params.lookup nmT = some (Value.varr vs) := lookup_of_mem_nodup hmem hnd
  simp only [replacementFor, keyNameOf_spread, string_mk_data, hlook, Option.getD_some]

/-- Core lemma for C4 and C9: the replacement scan over a SQL text containing
exactly one token, a `:...name` spread of a declared name. -/
theorem scan_spread_split {params : List (String × Value)} {nmT : String} {v : Value}
    (hw : ∀ p ∈ params, p.1.data ≠ [] ∧ ∀ c ∈ p.1.data, isWordChar c = true)
    (hnd : (params.map Prod.fst).Nodup)
    (hmem : (nmT, v) ∈ params)
    {pre post : List Char} (hpre : ∀ c ∈ pre, c ≠ ':')
    (hpost : wordBoundaryAfter post = true)
    (hposttok : ∀ nm ∈ params.map Prod.fst, hasTokAny nm.data post = false) :
    ∀ f, (pre ++ (spreadTok nmT.data ++ post)).length ≤ f →
      scanReplace params f (pre ++ (spreadTok nmT.data ++ post)) =
        (pre ++ ((replacementFor params (spreadTok nmT.data)).1 ++ post),
         (replacementFor params (spreadTok nmT.data)).2) := by
  induction pre with
  | nil =>
    intro f hlen
    cases f with
    | zero => simp [spreadTok] at hlen
    | succ f =>
      have hconsable : spreadTok nmT.data ++ post =
          ':' :: (('.' :: '.' :: '.' :: nmT.data) ++ post) := rfl
      have hm := tryMatchParams_at_spread hw hnd hmem hpost
      have heq : scanReplace params (f + 1) (spreadTok nmT.data ++ post) =
          ((replacementFor params (spreadTok nmT.data)).1 ++ (scanReplace params f post).1,
           (replacementFor params (spreadTok nmT.data)).2
             ++ (scanReplace params f post).2) := by
        rw [hconsable]
        rw [hconsable] at hm
        simp only [scanReplace, hm]
      rw [List.nil_append, heq, scan_untouched hposttok f]
      simp
  | cons c pre' ihp =>
    intro f hlen
    cases f with
    | zero => simp at hlen
    | succ f =>
      have hm : tryMatchParams (c :: (pre' ++ (spreadTok nmT.data ++ post))) params =
          none := by
        refine Option.not_isSome_iff_eq_none.mp ?_
        rw [tryMatchParams_isSome]
        rw [tokenAtHead_ne_colon (params.map Prod.fst) _ (hpre c (by simp))]
        simp
      have heq : scanReplace params (f + 1) ((c :: pre') ++ (spreadTok nmT.data ++ post)) =
          (c :: (scanReplace params f (pre' ++ (spreadTok nmT.data ++ post))).1,
           (scanReplace params f (pre' ++ (spreadTok nmT.data ++ post))).2) := by
        rw [List.cons_append]
        simp only [scanReplace, hm]
      have hlen' : (pre' ++ (spreadTok nmT.data ++ post)).length ≤ f := by
        simp only [List.cons_append, List.length_cons] at hlen
        omega
      rw [heq, ihp (fun x hx => hpre x (by simp [hx])) f hlen']
      simp

/-- The comma-space join of the source's `.join(', ')`. -/
def joinCommaSp : List (List Char) → List Char
| [] => []
| [x] => x
| x :: y :: r => x ++ (',' :: ' ' :: joinCommaSp (y :: r))

/-- Spec-side description of the expanded placeholder list
`@name0, ..., @nameN-1`. -/
def arrayPlaceholders (nm : String) (vs : List Value) : List Char :=
  joinCommaSp ((List.range vs.length).map fun i => '@' :: (nm.data ++ (toString i).data))

/-- Spec-side description of the appended parameters `[name0: v0], ...` in
element order. -/
def arrayEntries (nm : String) (vs : List Value) : List (List (String × Value)) :=
  ((List.range vs.length).zip vs).map fun iv =>
    [(String.mk (nm.data ++ (toString iv.1).data), iv.2)]

theorem expandArray_spec (nm : List Char) : ∀ (vs : List Value) (k : Nat),
    (expandArray nm k vs).1 =
      joinCommaSp ((List.range' k vs.length).map fun i => '@' :: (nm ++ (toString i).data))
    ∧ (expandArray nm k vs).2 =
      ((List.range' k vs.length).zip vs).map fun iv =>
        [(String.mk (nm ++ (toString iv.1).data), iv.2)]
| [], k => by simp [expandArray, joinCommaSp]
| [v], k => by simp [expandArray, joinCommaSp, List.range'_one]
| v :: v2 :: vs, k => by
  obtain ⟨ih1, ih2⟩ := expandArray_spec nm (v2 :: vs) (k + 1)
  constructor
  · show '@' :: ((nm ++ (toString k).data) ++
        (',' :: ' ' :: (expandArray nm (k + 1) (v2 :: vs)).1)) = _
    rw [ih1]
    rw [show (v :: v2 :: vs).length = ((v2 :: vs).length + 1) from rfl, List.range'_succ]
    rw [show (v2 :: vs).length = (vs.length + 1) from rfl, List.range'_succ]
    simp [joinCommaSp, List.range'_succ]
  · show [(String.mk (nm ++ (toString k).data), v)] ::
        (expandArray nm (k + 1) (v2 :: vs)).2 = _
    rw [ih2]
    rw [show (v :: v2 :: vs).length = ((v2 :: vs).length + 1) from rfl, List.range'_succ]
    rw [show (v2 :: vs).length = (vs.length + 1) from rfl, List.range'_succ]
    simp [List.range'_succ]

/-- Shared assembly for C4 and C9: translating SQL of the shape
`pre :...name post` with `name` bound to an array. -/
theorem escapeQuery_spread_eq {params : List (String × Value)} {nmT : String}
    {vs : List Value}
    (hmem : (nmT, Value.varr vs) ∈ params)
    (hnd : (params.map Prod.fst).Nodup)
    (hw : ∀ p ∈ params, p.1.data ≠ [] ∧ ∀ c ∈ p.1.data, isWordChar c = true)
    {pre post : List Char} (hpre : ∀ c ∈ pre, c ≠ ':')
    (hpost : wordBoundaryAfter post = true)
    (hposttok : ∀ nm ∈ params.map Prod.fst, hasTokAny nm.data post = false) :
    escapeQueryWithParameters (String.mk (pre ++ (spreadTok nmT.data ++ post))) params [] =
      (String.mk (pre ++ ((expandArray nmT.data 0 vs).1 ++ post)),
       (expandArray nmT.data 0 vs).2) := by
  have hne : params.length ≠ 0 := by
    intro h
    rw [List.eq_nil_of_length_eq_zero h] at hmem
    simp at hmem
  have hneb : (params.length == 0) = false := by simp [hne]
  have hdata : (String.mk (pre ++ (spreadTok nmT.data ++ post))).data =
      pre ++ (spreadTok nmT.data ++ post) := rfl
  have hscan := scan_spread_split hw hnd hmem hpre hpost hposttok
    (pre ++ (spreadTok nmT.data ++ post)).length (Nat.le_refl _)
  simp only [escapeQueryWithParameters, hneb, hdata, List.length_nil, gt_iff_lt,
    Nat.lt_irrefl, if_false, Bool.false_eq_true, hscan, replacementFor_array hnd hmem]
  simp

/-- Claim C4: a `:...name` token of an array-valued parameter of length N is
replaced by the comma-joined placeholders `@name0, ..., @nameN-1` and exactly
N native parameters named `name0 .. nameN-1` are appended in element order; in
particular the `IN (:...ids)` scenario with values 1, 2, 3. -/
theorem escapeQuery_array_expansion :
    (∀ (pre post : List Char) (nm : String) (vs : List Value)
        (params : List (String × Value)),
      (nm, Value.varr vs) ∈ params →
      (params.map Prod.fst).Nodup →
      (∀ p ∈ params, p.1.data ≠ [] ∧ ∀ c ∈ p.1.data, isWordChar c = true) →
      (∀ c ∈ pre, c ≠ ':') →
      wordBoundaryAfter post = true →
      (∀ q ∈ params.map Prod.fst, hasTokAny q.data post = false) →
      escapeQueryWithParameters (String.mk (pre ++ (spreadTok nm.data ++ post))) params [] =
        (String.mk (pre ++ (arrayPlaceholders nm vs ++ post)), arrayEntries nm vs)
      ∧ (arrayEntries nm vs).length = vs.length)
    ∧ escapeQueryWithParameters "SELECT * FROM t WHERE id IN (:...ids)"
        [("ids", Value.varr [Value.vint 1, Value.vint 2, Value.vint 3])] [] =
        ("SELECT * FROM t WHERE id IN (@ids0, @ids1, @ids2)",
         [[("ids0", Value.vint 1)], [("ids1", Value.vint 2)],
          [("ids2", Value.vint 3)]]) := by
  constructor
  · intro pre post nm vs params hmem hnd hw hpre hpost hposttok
    constructor
    · rw [escapeQuery_spread_eq hmem hnd hw hpre hpost hposttok]
      obtain ⟨h1, h2⟩ := expandArray_spec nm.data vs 0
      rw [h1, h2, ← List.range_eq_range']
      rfl
    · simp [arrayEntries]
  · rfl

/-- Witness for C4's universal part at a concrete input. -/
theorem escapeQuery_array_expansion_witness :
    escapeQueryWithParameters
        (String.mk (("x = " : String).data ++
          (spreadTok ("ids" : String).data ++ (")" : String).data)))
        [("ids", Value.varr [Value.vint 7])] [] =
      (String.mk (("x = " : String).data ++
        (arrayPlaceholders "ids" [Value.vint 7] ++ (")" : String).data)),
       arrayEntries "ids" [Value.vint 7]) :=
  (escapeQuery_array_expansion.1 ("x = " : String).data (")" : String).data "ids"
    [Value.vint 7] [("ids", Value.varr [Value.vint 7])] (by simp) (by simp) (by decide)
    (by decide) (by decide) (by decide)).1

/-- Claim C9: a `:...name` token of an empty-array parameter is replaced by the
empty string and appends no native parameters — an `IN (:...xs)` clause
becomes `IN ()`. -/
theorem escapeQuery_empty_array :
    (∀ (pre post : List Char) (nm : String) (params : List (String × Value)),
      (nm, Value.varr []) ∈ params →
      (params.map Prod.fst).Nodup →
      (∀ p ∈ params, p.1.data ≠ [] ∧ ∀ c ∈ p.1.data, isWordChar c = true) →
      (∀ c ∈ pre, c ≠ ':') →
      wordBoundaryAfter post = true →
      (∀ q ∈ params.map Prod.fst, hasTokAny q.data post = false) →
      escapeQueryWithParameters (String.mk (pre ++ (spreadTok nm.data ++ post))) params [] =
        (String.mk (pre ++ post), []))
    ∧ escapeQueryWithParameters "SELECT * FROM t WHERE id IN (:...xs)"
        [("xs", Value.varr [])] [] =
        ("SELECT * FROM t WHERE id IN ()", []) := by
  constructor
  · intro pre post nm params hmem hnd hw hpre hpost hposttok
    rw [escapeQuery_spread_eq hmem hnd hw hpre hpost hposttok]
    rfl
  · rfl

/-- Witness for C9's universal part at a concrete input. -/
theorem escapeQuery_empty_array_witness :
    escapeQueryWithParameters
        (String.mk (("IN (" : String).data ++
          (spreadTok ("xs" : String).data ++ (")" : String).data)))
        [("xs", Value.varr [])] [] =
      (String.mk (("IN (" : String).data ++ (")" : String).data), []) :=
  escapeQuery_empty_array.1 ("IN (" : String).data (")" : String).data "xs"
    [("xs", Value.varr [])] (by simp) (by simp) (by decide) (by decide) (by decide)
    (by decide)

/-! ## DDL parser (`SpannerDriver.parseSchema`)

The statement regex, column regex, index-fragment regex and the
`INTERLEAVE`/`PRIMARY KEY`/index sub-patterns are translated into explicit
scanners with the same unanchored leftmost-match semantics. -/

def isWordWs (c : Char) : Bool := isWordChar c || c.isWhitespace

def isWordParen (c : Char) : Bool := isWordChar c || c == '(' || c == ')'

/-- `\s+`: at least one whitespace character, consumed greedily. -/
def ws1 : List Char → Option (List Char)
| [] => none
| c :: r => if c.isWhitespace then some (r.dropWhile Char.isWhitespace) else none

/-- `\s*`. -/
def ws0 (s : List Char) : List Char := s.dropWhile Char.isWhitespace

/-- `(\w+)`: a nonempty maximal word run. -/
def wordRun1 (s : List Char) : Option (List Char × List Char) :=
  let w := s.takeWhile isWordChar
  if w.isEmpty then none else some (w, s.dropWhile isWordChar)

/-- The lookahead `(?=\s*\))` after a comma. -/
def isWsThenParen (s : List Char) : Bool :=
  match s.dropWhile Char.isWhitespace with
  | ')' :: _ => true
  | _ => false

/-- The lazy group `([\s\S]*?),(?=\s*\))`: everything up to the first comma
that is followed by whitespace and a closing parenthesis. -/
def lazyCommaSplit : List Char → Option (List Char × List Char)
| [] => none
| c :: r =>
  if c == ',' && isWsThenParen r then some ([], r)
  else
    match lazyCommaSplit r with
    | some (g, rest) => some (c :: g, rest)
    | none => none

/-- Attempt of the statement regex
`\s*CREATE\s+TABLE\s+(\w+)\s?[^\(]*\(([\s\S]*?),(?=\s*\))\s*\)([\s\S]*)`
anchored at this position: the optional whitespace and the `[^(]*` run
together consume exactly the characters up to the first `(`.  Returns the
table name, the column-clause body and the trailer. -/
def matchCreateTableAt (s : List Char) : Option (List Char × List Char × List Char) := do
  let s1 ← stripPrefixQ "CREATE".data s
  let s2 ← ws1 s1
  let s3 ← stripPrefixQ "TABLE".data s2
  let s4 ← ws1 s3
  let (tn, s5) ← wordRun1 s4
  match s5.dropWhile (· != '(') with
  | '(' :: body =>
    match lazyCommaSplit body with
    | some (cols, afterComma) =>
      match ws0 afterComma with
      | ')' :: trailer => some (tn, cols, trailer)
      | _ => none
    | none => none
  | _ => none

/-- Unanchored search for the statement regex (JS `String.match`). -/
def matchCreateTable : List Char → Option (List Char × List Char × List Char)
| [] => none
| c :: r => (matchCreateTableAt (c :: r)).orElse fun _ => matchCreateTable r

/-- Attempt of the column regex `(\w+)\s+([\w\(\)]+)\s*([^\n]*)` anchored at
this position. -/
def matchColumnAt (s : List Char) : Option (List Char × List Char × List Char) := do
  let (nm, s1) ← wordRun1 s
  let s2 ← ws1 s1
  let ty := s2.takeWhile isWordParen
  if ty.isEmpty then none
  else
    let s3 := (s2.dropWhile isWordParen).dropWhile Char.isWhitespace
    some (nm, ty, s3.takeWhile (· != '\n'))

/-- Unanchored search for the column regex. -/
def matchColumn : List Char → Option (List Char × List Char × List Char)
| [] => none
| c :: r => (matchColumnAt (c :: r)).orElse fun _ => matchColumn r

/-- JS `String.split(',')` (an empty input yields one empty fragment). -/
def splitOnCommaL : List Char → List (List Char)
| [] => [[]]
| c :: r =>
  if c == ',' then [] :: splitOnCommaL r
  else
    match splitOnCommaL r with
    | g :: gs => (c :: g) :: gs
    | [] => [[c]]

/-- One column clause: a failed match is the fatal
`invalid ddl column format` error; otherwise the type token is resolved with
`parseTypeName` and nullability comes from a literal `NOT NULL` in the rest. -/
def parseColumnStmt (frag : List Char) : Except String TableColumnOptions :=
  match matchColumn frag with
  | none => Except.error (String.mk ("invalid ddl column format:".data ++ frag))
  | some (nm, ty, g3) =>
    let t := parseTypeName ty
    Except.ok {
      name := String.mk nm,
      type := t.typeName,
      isNullable := !(containsSubL "NOT NULL".data g3),
      isGenerated := false,
      isPrimary := false,
      isUnique := false,
      isArray := t.isArray,
      length := toString t.length,
      default := none,
      generationStrategy := none }

def parseColumns : List (List Char) → Except String (List TableColumnOptions)
| [] => Except.ok []
| f :: fs =>
  match parseColumnStmt f with
  | Except.error e => Except.error e
  | Except.ok c =>
    match parseColumns fs with
    | Except.error e => Except.error e
    | Except.ok cs => Except.ok (c :: cs)

/-- Attempt of the index-fragment regex `(\w+[\w\s]+\([^)]+\)[^,]*)` anchored
at this position: the greedy word run and word-or-space run jointly form a
maximal word/space run of length at least 2 starting with a word character
and ending at a `(`. -/
def idxMatchAt (s : List Char) : Option (List Char × List Char) :=
  match s with
  | [] => none
  | c :: _ =>
    if isWordChar c then
      let run := s.takeWhile isWordWs
      if run.length < 2 then none
      else
        match s.dropWhile isWordWs with
        | '(' :: r2 =>
          let inner := r2.takeWhile (· != ')')
          if inner.isEmpty then none
          else
            match r2.dropWhile (· != ')') with
            | ')' :: r4 =>
              some (run ++ '(' :: (inner ++ ')' :: r4.takeWhile (· != ',')),
                    r4.dropWhile (· != ','))
            | _ => none
        | _ => none
    else none

/-- The global scan collecting all index fragments (`match(.../g)`); each step
consumes at least one character, so fuel `s.length` suffices. -/
def idxMatchesF : Nat → List Char → List (List Char)
| 0, _ => []
| _, [] => []
| Nat.succ f, c :: r =>
  match idxMatchAt (c :: r) with
  | some (frag, rest) => frag :: idxMatchesF f rest
  | none => idxMatchesF f r

def idxMatches (s : List Char) : List (List Char) := idxMatchesF s.length s

/-- Attempt of `INTERLEAVE\s+IN\s+PARENT\s+(\w+)\s*\((\w+)\)` at this
position. -/
def matchInterleaveAt (s : List Char) : Option (List Char × List Char) := do
  let s1 ← stripPrefixQ "INTERLEAVE".data s
  let s2 ← ws1 s1
  let s3 ← stripPrefixQ "IN".data s2
  let s4 ← ws1 s3
  let s5 ← stripPrefixQ "PARENT".data s4
  let s6 ← ws1 s5
  let (tbl, s7) ← wordRun1 s6
  match ws0 s7 with
  | '(' :: s8 => do
    let (col, s9) ← wordRun1 s8
    match s9 with
    | ')' :: _ => some (tbl, col)
    | _ => none
  | _ => none

def matchInterleave : List Char → Option (List Char × List Char)
| [] => none
| c :: r => (matchInterleaveAt (c :: r)).orElse fun _ => matchInterleave r

/-- Attempt of `PRIMARY\s+KEY\s*\(([^)]+)\)` at this position. -/
def matchPrimaryAt (s : List Char) : Option (List Char) := do
  let s1 ← stripPrefixQ "PRIMARY".data s
  let s2 ← ws1 s1
  let s3 ← stripPrefixQ "KEY".data s2
  match ws0 s3 with
  | '(' :: s4 =>
    let inner := s4.takeWhile (· != ')')
    if inner.isEmpty then none
    else
      match s4.dropWhile (· != ')') with
      | ')' :: _ => some inner
      | _ => none
  | _ => none

def matchPrimary : List Char → Option (List Char)
| [] => none
| c :: r => (matchPrimaryAt (c :: r)).orElse fun _ => matchPrimary r

/-- The deterministic part of the index regex after the lazy qualifier:
`\s+INDEX\s+(\w+)\s+ON\s+(\w+)\s*\(([^)]+)\)`; returns name, table, column
list text. -/
def matchIndexRest (s : List Char) : Option (List Char × List Char × List Char) := do
  let s1 ← ws1 s
  let s2 ← stripPrefixQ "INDEX".data s1
  let s3 ← ws1 s2
  let (nm, s4) ← wordRun1 s3
  let s5 ← ws1 s4
  let s6 ← stripPrefixQ "ON".data s5
  let s7 ← ws1 s6
  let (tbl, s8) ← wordRun1 s7
  match ws0 s8 with
  | '(' :: s9 =>
    let inner := s9.takeWhile (· != ')')
    if inner.isEmpty then none
    else
      match s9.dropWhile (· != ')') with
      | ')' :: _ => some (nm, tbl, inner)
      | _ => none
  | _ => none

/-- The lazy qualifier group `(\w[\w\s]+?)`: extend one word-or-space
character at a time, trying the deterministic rest after each extension. -/
def matchIndexLazy : List Char → List Char →
    Option (List Char × List Char × List Char × List Char)
| _, [] => none
| g1, c :: r =>
  if isWordWs c then
    match matchIndexRest r with
    | some (nm, tbl, inner) => some (g1 ++ [c], nm, tbl, inner)
    | none => matchIndexLazy (g1 ++ [c]) r
  else none

def matchIndexAt : List Char → Option (List Char × List Char × List Char × List Char)
| [] => none
| c :: r => if isWordChar c then matchIndexLazy [c] r else none

/-- Unanchored search for the index regex
`(\w[\w\s]+?)\s+INDEX\s+(\w+)\s+ON\s+(\w+)\s*\(([^)]+)\)(.*)`; returns the
qualifier run, index name, table name and column-list text. -/
def matchIndex : List Char → Option (List Char × List Char × List Char × List Char)
| [] => none
| c :: r => (matchIndexAt (c :: r)).orElse fun _ => matchIndex r

/-- `columns.find(c => c.name == name)` followed by a field mutation of the
found column: update the first column with the given name, or nothing. -/
def mapFirstByName : List TableColumnOptions → String →
    (TableColumnOptions → TableColumnOptions) → List TableColumnOptions
| [], _, _ => []
| c :: cs, cn, f => if c.name == cn then f c :: cs else c :: mapFirstByName cs cn f

/-- `PRIMARY KEY(cols)`: mark each named column primary; unknown names are
silently ignored. -/
def markPrimaryColumns (cols : List TableColumnOptions) (inner : List Char) :
    List TableColumnOptions :=
  (splitOnCommaL inner).foldl
    (fun cs pc => mapFirstByName cs (String.mk (trimL pc)) fun c => { c with isPrimary := true })
    cols

/-- The mutable state of the trailer loop: the column options plus the index
and uniqueness descriptors accumulated so far. -/
structure TrailerState where
  columns : List TableColumnOptions
  indices : List TableIndexOptions
  uniques : List TableUniqueOptions
deriving DecidableEq, Repr

/-- One trailer fragment: an `INTERLEAVE`-headed fragment whose
`IN PARENT` pattern matches is the fatal unsupported-construct error; a
`PRIMARY`-headed fragment marks primary columns; anything else is tried as a
secondary index (unique indexes also set column uniqueness and record a
unique descriptor); unrecognized fragments are skipped. -/
def processIdxStmt (st : TrailerState) (frag : List Char) : Except String TrailerState :=
  if startsWithL "INTERLEAVE".data frag then
    match matchInterleave frag with
    | some _ => Except.error "NYI spanner: handle interleaved index"
    | none => Except.ok st
  else if startsWithL "PRIMARY".data frag then
    match matchPrimary frag with
    | some inner => Except.ok { st with columns := markPrimaryColumns st.columns inner }
    | none => Except.ok st
  else
    match matchIndex frag with
    | some (g1, nm, _tbl, inner) =>
      let idxOpts : TableIndexOptions := {
        name := String.mk nm,
        columnNames := (splitOnCommaL inner).map fun e => String.mk (trimL e),
        isUnique := containsSubL "UNIQUE".data g1,
        isSpatial := containsSubL "NULL_FILTERED".data g1 }
      if idxOpts.isUnique then
        Except.ok { st with
          indices := st.indices ++ [idxOpts],
          uniques := st.uniques ++
            [{ name := idxOpts.name, columnNames := idxOpts.columnNames }],
          columns := idxOpts.columnNames.foldl
            (fun cs un => mapFirstByName cs un fun c => { c with isUnique := true })
            st.columns }
      else
        Except.ok { st with indices := st.indices ++ [idxOpts] }
    | none => Except.ok st

def processTrailer : List (List Char) → TrailerState → Except String TrailerState
| [], st => Except.ok st
| f :: fs, st =>
  match processIdxStmt st f with
  | Except.error e => Except.error e
  | Except.ok st1 => processTrailer fs st1

/-- One DDL statement: skipped (`ok none`) when the CREATE TABLE shape does
not match; otherwise the columns are parsed (fatal on a malformed clause) and
the trailer fragments are processed (fatal on `INTERLEAVE IN PARENT`). -/
def parseStatement (stmt : String) : Except String (Option (String × Table)) :=
  match matchCreateTable stmt.data with
  | none => Except.ok none
  | some (tn, colsBody, trailer) =>
    match parseColumns (splitOnCommaL colsBody) with
    | Except.error e => Except.error e
    | Except.ok columns =>
      match processTrailer (idxMatches trailer)
          { columns := columns, indices := [], uniques := [] } with
      | Except.error e => Except.error e
      | Except.ok st =>
        Except.ok (some (String.mk tn,
          { name := String.mk tn, columns := st.columns, indices := st.indices,
            uniques := st.uniques, foreignKeys := [] }))

/-- `tableOptionsMap[tableName] = options`: JS object insertion keeps the
first-insertion position on overwrite. -/
def upsert : List (String × Table) → String → Table → List (String × Table)
| [], k, v => [(k, v)]
| (k0, v0) :: rest, k, v =>
  if k0 == k then (k0, v) :: rest else (k0, v0) :: upsert rest k v

def parseSchemaAux : List (String × Table) → List String →
    Except String (List (String × Table))
| acc, [] => Except.ok acc
| acc, stmt :: rest =>
  match parseStatement stmt with
  | Except.error e => Except.error e
  | Except.ok none => parseSchemaAux acc rest
  | Except.ok (some (tn, tbl)) => parseSchemaAux (upsert acc tn tbl) rest

/-- `SpannerDriver.parseSchema`: fold the DDL statements into a mapping from
table name to table descriptor (here an association list in insertion
order). -/
def parseSchema (stmts : List String) : Except String (List (String × Table)) :=
  parseSchemaAux [] stmts

/-- The column-clause fatal condition of one matched statement. -/
def hasMalformedColumn (colsBody : List Char) : Bool :=
  (splitOnCommaL colsBody).any fun f => (matchColumn f).isNone

/-- The trailer fatal condition of one matched statement: an extracted
fragment starting with `INTERLEAVE` whose `IN PARENT` pattern matches. -/
def hasInterleaveFatal (trailer : List Char) : Bool :=
  (idxMatches trailer).any fun f =>
    startsWithL "INTERLEAVE".data f && (matchInterleave f).isSome

/-- A statement on which `parseSchema` raises a fatal error: it matches the
CREATE TABLE shape and has a malformed column clause or an
`INTERLEAVE IN PARENT` construct in its trailer. -/
def statementFatal (stmt : String) : Prop :=
  ∃ tn colsBody trailer,
    matchCreateTable stmt.data = some (tn, colsBody, trailer) ∧
    (hasMalformedColumn colsBody = true ∨ hasInterleaveFatal trailer = true)

/-- Claim C1: the scenario DDL parses to table `t` with column `id` of type
`int64`, not nullable and primary, and column `name` of type `string`,
length 255, nullable and not primary. -/
theorem parseSchema_scenario :
    parseSchema ["CREATE TABLE t (id INT64 NOT NULL, name STRING(255),) PRIMARY KEY(id)"] =
      Except.ok [("t",
        { name := "t",
          columns := [
            { name := "id", type := "int64", isNullable := false, isGenerated := false,
              isPrimary := true, isUnique := false, isArray := false, length := "1",
              default := none, generationStrategy := none },
            { name := "name", type := "string", isNullable := true, isGenerated := false,
              isPrimary := false, isUnique := false, isArray := false, length := "255",
              default := none, generationStrategy := none }],
          indices := [], uniques := [], foreignKeys := [] })] := rfl

theorem parseColumnStmt_error_iff (f : List Char) :
    (∃ e, parseColumnStmt f = Except.error e) ↔ matchColumn f = none := by
  cases hm : matchColumn f with
  | none => simp [parseColumnStmt, hm]
  | some v =>
    obtain ⟨nm, ty, g3⟩ := v
    simp [parseColumnStmt, hm]

theorem parseColumns_error_iff : ∀ frags : List (List Char),
    (∃ e, parseColumns frags = Except.error e) ↔ ∃ f ∈ frags, matchColumn f = none := by
  intro frags
  induction frags with
  | nil => simp [parseColumns]
  | cons f fs ih =>
    cases hc : parseColumnStmt f with
    | error e =>
      simp only [parseColumns, hc]
      constructor
      · intro _
        exact ⟨f, by simp, (parseColumnStmt_error_iff f).mp ⟨e, hc⟩⟩
      · intro _
        exact ⟨e, rfl⟩
    | ok c =>
      cases hp : parseColumns fs with
      | error e =>
        simp only [parseColumns, hc, hp]
        constructor
        · intro _
          obtain ⟨f', hf', hn⟩ := ih.mp ⟨e, hp⟩
          exact ⟨f', by simp [hf'], hn⟩
        · intro _
          exact ⟨e, rfl⟩
      | ok cs =>
        simp only [parseColumns, hc, hp]
        constructor
        · rintro ⟨e, he⟩
          simp at he
        · rintro ⟨f', hf', hn⟩
          rcases List.mem_cons.mp hf' with rfl | hfs
          · obtain ⟨e, he⟩ := (parseColumnStmt_error_iff f').mpr hn
            rw [hc] at he
            simp at he
          · obtain ⟨e, he⟩ := ih.mpr ⟨f', hfs, hn⟩
            rw [hp] at he
            simp at he

theorem processIdxStmt_ok_of_not_fatal (st : TrailerState) (f : List Char)
    (h : (startsWithL "INTERLEAVE".data f && (matchInterleave f).isSome) = false) :
    ∃ st', processIdxStmt st f = Except.ok st' := by
  by_cases hS : startsWithL "INTERLEAVE".data f = true
  · have hI : matchInterleave f = none := by
      rw [hS] at h
      simp only [Bool.true_and] at h
      exact Option.not_isSome_iff_eq_none.mp (by simp [h])
    exact ⟨st, by simp [processIdxStmt, hS, hI]⟩
  · have hS' : startsWithL "INTERLEAVE".data f = false := by simpa using hS
    simp only [processIdxStmt, hS', Bool.false_eq_true, if_false]
    by_cases hP : startsWithL "PRIMARY".data f = true
    · rw [if_pos hP]
      cases matchPrimary f <;> exact ⟨_, rfl⟩
    · rw [if_neg hP]
      cases hMI : matchIndex f with
      | none => exact ⟨st, rfl⟩
      | some q =>
        obtain ⟨g1, nm, tbl, inner⟩ := q
        by_cases hU : containsSubL "UNIQUE".data g1 = true <;> simp [hU]

theorem processIdxStmt_error_iff (st : TrailerState) (f : List Char) :
    (∃ e, processIdxStmt st f = Except.error e) ↔
      (startsWithL "INTERLEAVE".data f && (matchInterleave f).isSome) = true := by
  constructor
  · rintro ⟨e, he⟩
    by_cases hfat : (startsWithL "INTERLEAVE".data f && (matchInterleave f).isSome) = true
    · exact hfat
    · obtain ⟨st', hok⟩ := processIdxStmt_ok_of_not_fatal st f (by simpa using hfat)
      rw [hok] at he
      simp at he
  · intro hfat
    have hfat' := hfat
    simp only [Bool.and_eq_true] at hfat'
    have hS : startsWithL "INTERLEAVE".data f = true := hfat'.1
    have hI : (matchInterleave f).isSome = true := hfat'.2
    obtain ⟨v, hv⟩ := Option.isSome_iff_exists.mp hI
    exact ⟨"NYI spanner: handle interleaved index", by simp [processIdxStmt, hS, hv]⟩

theorem processTrailer_error_iff : ∀ (frags : List (List Char)) (st : TrailerState),
    (∃ e, processTrailer frags st = Except.error e) ↔
      ∃ f ∈ frags, (startsWithL "INTERLEAVE".data f && (matchInterleave f).isSome) = true := by
  intro frags
  induction frags with
  | nil => intro st; simp [processTrailer]
  | cons f fs ih =>
    intro st
    cases hc : processIdxStmt st f with
    | error e =>
      simp only [processTrailer, hc]
      constructor
      · intro _
        exact ⟨f, by simp, (processIdxStmt_error_iff st f).mp ⟨e, hc⟩⟩
      · intro _
        exact ⟨e, rfl⟩
    | ok st1 =>
      simp only [processTrailer, hc]
      rw [ih st1]
      constructor
      · rintro ⟨f', hf', hfat⟩
        exact ⟨f', by simp [hf'], hfat⟩
      · rintro ⟨f', hf', hfat⟩
        rcases List.mem_cons.mp hf' with rfl | hmem
        · obtain ⟨e, he⟩ := (processIdxStmt_error_iff st f').mpr hfat
          rw [hc] at he
          simp at he
        · exact ⟨f', hmem, hfat⟩

theorem parseStatement_error_iff (stmt : String) :
    (∃ e, parseStatement stmt = Except.error e) ↔ statementFatal stmt := by
  unfold statementFatal
  cases hm : matchCreateTable stmt.data with
  | none => simp [parseStatement, hm]
  | some v =>
    obtain ⟨tn, colsBody, trailer⟩ := v
    cases hc : parseColumns (splitOnCommaL colsBody) with
    | error e =>
      have hps : parseStatement stmt = Except.error e := by
        simp only [parseStatement, hm, hc]
      constructor
      · intro _
        refine ⟨tn, colsBody, trailer, rfl, Or.inl ?_⟩
        obtain ⟨f, hf, hn⟩ := (parseColumns_error_iff _).mp ⟨e, hc⟩
        unfold hasMalformedColumn
        rw [List.any_eq_true]
        exact ⟨f, hf, by simp [hn]⟩
      · intro _
        exact ⟨e, hps⟩
    | ok cols =>
      cases ht : processTrailer (idxMatches trailer)
          { columns := cols, indices := [], uniques := [] } with
      | error e =>
        have hps : parseStatement stmt = Except.error e := by
          simp only [parseStatement, hm, hc, ht]
        constructor
        · intro _
          refine ⟨tn, colsBody, trailer, rfl, Or.inr ?_⟩
          obtain ⟨f, hf, hfat⟩ := (processTrailer_error_iff _ _).mp ⟨e, ht⟩
          unfold hasInterleaveFatal
          rw [List.any_eq_true]
          exact ⟨f, hf, hfat⟩
        · intro _
          exact ⟨e, hps⟩
      | ok st =>
        have hps : parseStatement stmt =
            Except.ok (some (String.mk tn,
              { name := String.mk tn, columns := st.columns, indices := st.indices,
                uniques := st.uniques, foreignKeys := [] })) := by
          simp only [parseStatement, hm, hc, ht]
        constructor
        · rintro ⟨e, he⟩
          rw [hps] at he
          simp at he
        · rintro ⟨tn', cb', tr', heq, hor⟩
          have htr : tn = tn' ∧ colsBody = cb' ∧ trailer = tr' := by
            simpa using heq
          obtain ⟨h1, h2, h3⟩ := htr
          subst h1; subst h2; subst h3
          rcases hor with hmal | hint
          · unfold hasMalformedColumn at hmal
            rw [List.any_eq_true] at hmal
            obtain ⟨f, hf, hn⟩ := hmal
            have hn' : matchColumn f = none := by simpa using hn
            obtain ⟨e, he⟩ := (parseColumns_error_iff _).mpr ⟨f, hf, hn'⟩
            rw [hc] at he
            simp at he
          · unfold hasInterleaveFatal at hint
            rw [List.any_eq_true] at hint
            obtain ⟨f, hf, hfat⟩ := hint
            obtain ⟨e, he⟩ := (processTrailer_error_iff _ _).mpr ⟨f, hf, hfat⟩
            rw [ht] at he
            simp at he

theorem parseSchemaAux_error_iff : ∀ (stmts : List String) (acc : List (String × Table)),
    (∃ e, parseSchemaAux acc stmts = Except.error e) ↔
      ∃ stmt ∈ stmts, statementFatal stmt := by
  intro stmts
  induction stmts with
  | nil => intro acc; simp [parseSchemaAux]
  | cons stmt rest ih =>
    intro acc
    cases hp : parseStatement stmt with
    | error e =>
      simp only [parseSchemaAux, hp]
      constructor
      · intro _
        exact ⟨stmt, by simp, (parseStatement_error_iff stmt).mp ⟨e, hp⟩⟩
      · intro _
        exact ⟨e, rfl⟩
    | ok r =>
      have hrest : ∀ acc', (∃ e, parseSchemaAux acc' rest = Except.error e) ↔
          ∃ s ∈ rest, statementFatal s := fun acc' => ih acc'
      have hstep : ∀ acc', ((∃ e, parseSchemaAux acc' rest = Except.error e) ↔
          ∃ s ∈ stmt :: rest, statementFatal s) := by
        intro acc'
        rw [hrest acc']
        constructor
        · rintro ⟨s, hs, hfat⟩
          exact ⟨s, by simp [hs], hfat⟩
        · rintro ⟨s, hs, hfat⟩
          rcases List.mem_cons.mp hs with rfl | hmem
          · obtain ⟨e, he⟩ := (parseStatement_error_iff s).mpr hfat
            rw [hp] at he
            simp at he
          · exact ⟨s, hmem, hfat⟩
      cases r with
      | none =>
        simp only [parseSchemaAux, hp]
        exact hstep acc
      | some p =>
        obtain ⟨tn, tbl⟩ := p
        simp only [parseSchemaAux, hp]
        exact hstep (upsert acc tn tbl)

/-- Claim C2: `parseSchema` raises a fatal error exactly when some statement
matches the CREATE TABLE shape and either contains a column fragment not
matching the name/type/rest shape or carries an `INTERLEAVE IN PARENT`
construct in its trailer; statements that do not match the shape are skipped
and never raise, and there are no other fatal conditions. -/
theorem parseSchema_fatal_conditions (stmts : List String) :
    (∃ e, parseSchema stmts = Except.error e) ↔ ∃ stmt ∈ stmts, statementFatal stmt :=
  parseSchemaAux_error_iff stmts []

end SpannerDriver
